import Mathlib

/-!
Verification of the weighted-lottery wheel engine (`src/lib/wheel-algorithm.ts`).

The TypeScript module is embedded shallowly:
* JS numbers are modelled by an arbitrary `LinearOrderedField K` (instantiated at `ℚ`
  for executable witnesses and at `ℝ` for the probability statement);
* the JS `Map` is modelled as an association list built with an insertion-order
  preserving `set` operation (`jsMapSet`);
* JS arrays inside `seededShuffle` are modelled with explicit JS semantics
  (`JsArray`): reads outside the index range yield `undefined` (`Option.none`),
  writes at negative indices create extra integer-keyed properties that are not
  array elements, and `%` is the sign-of-dividend remainder (`jsMod`);
* a JS `TypeError` (property access on `undefined`) is modelled as `Except.error`;
* the optional `randomValue` parameters (defaulting to `Math.random()`) are modelled
  as explicit arguments, matching the injectable-randomness reading of the spec.
-/

namespace Wheel

/-- The `WheelSong` record from the source (`id`, `title`, `artist`, `points`,
`bananaStickers`); numeric fields live in the field `K`. -/
structure WheelSong (K : Type) where
  id : ℤ
  title : String
  artist : String
  points : K
  bananaStickers : K
  deriving DecidableEq

/-- One wheel segment, mirroring the `WheelSegment` interface of the source. -/
structure WheelSegment (K : Type) where
  song : WheelSong K
  startAngle : K
  endAngle : K
  angle : K
  midAngle : K
  isBananaSection : Bool
  segmentId : String
  deriving DecidableEq

/-- The `WheelLayout` record of the source. -/
structure WheelLayout (K : Type) where
  segments : List (WheelSegment K)
  hasBananaSection : Bool
  totalBananas : K
  totalPoints : K
  deriving DecidableEq

/-- Result record of `selectWinner` (`{ winner, fromBananaSection }`). -/
structure SelectResult (K : Type) where
  winner : WheelSong K
  fromBananaSection : Bool
  deriving DecidableEq

/-- Per-song entry produced by `calculateProbabilities`. -/
structure SongProbability (K : Type) where
  bananaProbability : K
  pointsProbability : K
  totalProbability : K
  deriving DecidableEq

variable {K : Type} [LinearOrderedField K]

/-- The JS truthy fallback `p || 1` on numbers: `0` is falsy and becomes `1`;
every other (also negative) value passes through. -/
def resolvePoints (p : K) : K :=
  if p = 0 then 1 else p

/-- The accumulation loop of `weightedRandomSelect`:
walks the items adding weights and returns the first item whose running
cumulative weight reaches `targetWeight` (`targetWeight <= cumulative`). -/
def wrsWalk {T : Type} (getWeight : T → K) (targetWeight : K) :
    List T → K → Option T
  | [], _ => none
  | item :: rest, cumulative =>
    if targetWeight ≤ cumulative + getWeight item then some item
    else wrsWalk getWeight targetWeight rest (cumulative + getWeight item)

/-- `weightedRandomSelect` from the source: `null` on an empty list, first item when
the total weight is `0`, otherwise the cumulative walk with a fallback to the last
item when the walk never reaches the target. -/
def weightedRandomSelect {T : Type} (items : List T) (getWeight : T → K)
    (randomValue : K) : Option T :=
  if items.isEmpty then none
  else
    let totalWeight := (items.map getWeight).sum
    if totalWeight = 0 then items.head?
    else
      match wrsWalk getWeight (randomValue * totalWeight) items 0 with
      | some item => some item
      | none => items.getLast?

/-- `selectWinner` from the source, with the two random draws as explicit
parameters.  `fromBananaSection = hasBananaSection && rand1 < 0.5`. -/
def selectWinner (songs : List (WheelSong K))
    (randomValue randomValueWithinSection : K) : Option (SelectResult K) :=
  if songs.isEmpty then none
  else
    let bananaSongs := songs.filter fun s => decide (0 < s.bananaStickers)
    let totalBananas : K := (bananaSongs.map fun s => s.bananaStickers).sum
    if 0 < totalBananas ∧ randomValue < 1 / 2 then
      (weightedRandomSelect bananaSongs (fun s => s.bananaStickers)
        randomValueWithinSection).map fun w => ⟨w, true⟩
    else
      (weightedRandomSelect songs (fun s => resolvePoints s.points)
        randomValueWithinSection).map fun w => ⟨w, false⟩

/-- JS remainder `a % n` (sign of the dividend) for a positive modulus. -/
def jsMod (a n : ℤ) : ℤ :=
  if 0 ≤ a then a % n else -((-a) % n)

/-- One step of the hand-rolled LCG of `seededShuffle`:
`currentSeed = (currentSeed * 9301 + 49297) % 233280`. -/
def lcgNext (s : ℤ) : ℤ :=
  jsMod (s * 9301 + 49297) 233280

/-- A JS array as mutated by `seededShuffle`: `elems` are the indexed elements
(`none` is a hole read back as `undefined`); `props` are extra integer-keyed
properties created by writes outside the index range (most recent first). -/
structure JsArray (α : Type) where
  elems : List (Option α)
  props : List (ℤ × Option α)

/-- Read `a[i]` with JS semantics: in-range reads return the element,
out-of-range reads return the matching property if any, else `undefined`. -/
def JsArray.read {α : Type} (a : JsArray α) (i : ℤ) : Option α :=
  if h : 0 ≤ i ∧ i.toNat < a.elems.length then a.elems.get ⟨i.toNat, h.2⟩
  else ((a.props.find? fun p => p.1 == i).map fun p => p.2).getD none

/-- Write `a[i] = v` with JS semantics: in-range writes update the element,
writes past the end extend the array with holes, negative indices become
properties. -/
def JsArray.write {α : Type} (a : JsArray α) (i : ℤ) (v : Option α) : JsArray α :=
  if 0 ≤ i then
    if i.toNat < a.elems.length then ⟨a.elems.set i.toNat v, a.props⟩
    else ⟨a.elems ++ List.replicate (i.toNat - a.elems.length) none ++ [v], a.props⟩
  else ⟨a.elems, (i, v) :: a.props⟩

/-- The Fisher-Yates loop of `seededShuffle`.  At count `ci + 1` it draws the next
LCG value, computes `randomIndex = Math.floor(random() * currentIndex)` — in exact
arithmetic `Math.floor((s1 / 233280) * currentIndex)` is the floor division
`(s1 * currentIndex).fdiv 233280` — decrements `currentIndex` and swaps the two
positions with a JS destructuring assignment. -/
def seededShuffleLoop {α : Type} : JsArray α → ℕ → ℤ → JsArray α
  | a, 0, _ => a
  | a, ci + 1, s =>
    let s1 := lcgNext s
    let randomIndex : ℤ := (s1 * ((ci : ℤ) + 1)).fdiv 233280
    let vi := a.read ci
    let vj := a.read randomIndex
    let a1 := a.write ci vj
    let a2 := a1.write randomIndex vi
    seededShuffleLoop a2 ci s1

/-- `seededShuffle` from the source: copy the array, run the seeded Fisher-Yates
loop, return the resulting elements (which may contain `undefined`). -/
def seededShuffle {α : Type} (array : List α) (seed : ℤ) : List (Option α) :=
  (seededShuffleLoop ⟨array.map some, []⟩ array.length seed).elems

/-- Iterating over a JS array whose elements may be `undefined` and touching a
property on each element: the first `undefined` element raises a `TypeError`. -/
def jsElems {α : Type} : List (Option α) → Except String (List α)
  | [] => .ok []
  | none :: _ => .error "TypeError: undefined element"
  | some a :: rest => (jsElems rest).map fun l => a :: l

/-- One pool loop of `buildWheelLayout` (banana section or points section):
walks the pool accumulating `currentAngle`, emitting one segment per song with
`angle = weight / poolTotal * degreesTotal`; returns the segments and the final
`currentAngle`. -/
def poolSegments (isBanana : Bool) (poolTag : String) (weightOf : WheelSong K → K)
    (totalW degreesTotal : K) : List (WheelSong K) → K → List (WheelSegment K) × K
  | [], currentAngle => ([], currentAngle)
  | song :: rest, currentAngle =>
    let angle := weightOf song / totalW * degreesTotal
    let seg : WheelSegment K :=
      ⟨song, currentAngle, currentAngle + angle, angle, currentAngle + angle / 2,
        isBanana, poolTag ++ toString song.id⟩
    let next := poolSegments isBanana poolTag weightOf totalW degreesTotal rest
      (currentAngle + angle)
    (seg :: next.1, next.2)

/-- `buildWheelLayout` from the source.  The optional `shuffleSeed` drives
`seededShuffle`; a shuffled array containing `undefined` makes the subsequent
property accesses throw, modelled as `Except.error`. -/
def buildWheelLayout (songs : List (WheelSong K)) (shuffleSeed : Option ℤ) :
    Except String (WheelLayout K) :=
  if songs.isEmpty then .ok ⟨[], false, 0, 0⟩
  else
    let bananaSongs := songs.filter fun s => decide (0 < s.bananaStickers)
    let totalBananas := (bananaSongs.map fun s => s.bananaStickers).sum
    let totalPoints := (songs.map fun s => resolvePoints s.points).sum
    let hasBananaSection := decide (0 < totalBananas)
    do
      let shuffledBananaSongs ← match shuffleSeed with
        | some seed => jsElems (seededShuffle bananaSongs seed)
        | none => .ok bananaSongs
      let shuffledAllSongs ← match shuffleSeed with
        | some seed => jsElems (seededShuffle songs (seed + 1))
        | none => .ok songs
      let bananaPart :=
        if hasBananaSection then
          poolSegments true "banana-" (fun s => s.bananaStickers) totalBananas 180
            shuffledBananaSongs (-90)
        else ([], -90)
      let pointsDegreesTotal : K := if hasBananaSection then 180 else 360
      let pointsPart :=
        poolSegments false "points-" (fun s => resolvePoints s.points) totalPoints
          pointsDegreesTotal shuffledAllSongs bananaPart.2
      return ⟨bananaPart.1 ++ pointsPart.1, hasBananaSection, totalBananas, totalPoints⟩

/-- JS `Map.prototype.set` on an insertion-ordered association list: an existing
key is updated in place, a new key is appended. -/
def jsMapSet {β : Type} (m : List (ℤ × β)) (k : ℤ) (v : β) : List (ℤ × β) :=
  if m.any fun p => p.1 == k then m.map fun p => if p.1 == k then (k, v) else p
  else m ++ [(k, v)]

/-- JS `Map.prototype.get`. -/
def jsMapGet {β : Type} (m : List (ℤ × β)) (k : ℤ) : Option β :=
  (m.find? fun p => p.1 == k).map fun p => p.2

/-- `calculateProbabilities` from the source, building the JS `Map` as an
association list in iteration order. -/
def calculateProbabilities (songs : List (WheelSong K)) :
    List (ℤ × SongProbability K) :=
  let bananaSongs := songs.filter fun s => decide (0 < s.bananaStickers)
  let totalBananas : K := (bananaSongs.map fun s => s.bananaStickers).sum
  let totalPoints : K := (songs.map fun s => resolvePoints s.points).sum
  songs.foldl
    (fun (result : List (ℤ × SongProbability K)) (song : WheelSong K) =>
      let bananaProbability : K :=
        if 0 < totalBananas ∧ 0 < song.bananaStickers then
          1 / 2 * (song.bananaStickers / totalBananas)
        else 0
      let pointsProbability : K :=
        if 0 < totalBananas then 1 / 2 * (resolvePoints song.points / totalPoints)
        else resolvePoints song.points / totalPoints
      jsMapSet result song.id
        ⟨bananaProbability, pointsProbability, bananaProbability + pointsProbability⟩)
    []

/-- Cumulative weight of the first `n` items, used to state the boundary
convention of `weightedRandomSelect`. -/
def cumWeight {T : Type} (getWeight : T → K) (items : List T) (n : ℕ) : K :=
  ((items.take n).map getWeight).sum

section WalkLemmas

variable {T : Type}

theorem cumWeight_zero (w : T → K) (l : List T) : cumWeight w l 0 = 0 := rfl

theorem cumWeight_cons (w : T → K) (a : T) (l : List T) (n : ℕ) :
    cumWeight w (a :: l) (n + 1) = w a + cumWeight w l n := by
  simp [cumWeight]

theorem cumWeight_one (w : T → K) (a : T) (l : List T) :
    cumWeight w (a :: l) 1 = w a := by
  simp [cumWeight_cons, cumWeight_zero]

theorem cumWeight_length (w : T → K) (l : List T) :
    cumWeight w l l.length = (l.map w).sum := by
  simp [cumWeight]

theorem cumWeight_succ (w : T → K) (l : List T) (n : ℕ) (hn : n < l.length) :
    cumWeight w l (n + 1) = cumWeight w l n + w (l.get ⟨n, hn⟩) := by
  have hn2 : n < (l.map w).length := by simpa using hn
  unfold cumWeight
  rw [List.map_take, List.map_take, List.sum_take_succ _ _ hn2, List.getElem_map]
  simp

theorem cumWeight_le_succ (w : T → K) (l : List T) (h : ∀ x ∈ l, 0 ≤ w x) (n : ℕ) :
    cumWeight w l n ≤ cumWeight w l (n + 1) := by
  by_cases hn : n < l.length
  · rw [cumWeight_succ w l n hn]
    have hx := h _ (l.get_mem n hn)
    linarith
  · have heq : l.take (n + 1) = l.take n := by
      rw [List.take_of_length_le (by omega), List.take_of_length_le (by omega)]
    simp [cumWeight, heq]

theorem cumWeight_mono (w : T → K) (l : List T) (h : ∀ x ∈ l, 0 ≤ w x)
    {m n : ℕ} (hmn : m ≤ n) : cumWeight w l m ≤ cumWeight w l n := by
  induction hmn with
  | refl => exact le_rfl
  | step hstep ih => exact le_trans ih (cumWeight_le_succ w l h _)

theorem wrsWalk_eq_some_iff (w : T → K) (t : K) :
    ∀ (l : List T) (c : K) (x : T),
      wrsWalk w t l c = some x ↔
        ∃ k, ∃ hk : k < l.length, x = l.get ⟨k, hk⟩ ∧
          t ≤ c + cumWeight w l (k + 1) ∧
          ∀ j < k, ¬ t ≤ c + cumWeight w l (j + 1) := by
  intro l
  induction l with
  | nil => intro c x; simp [wrsWalk]
  | cons a l ih =>
    intro c x
    rw [wrsWalk]
    by_cases h : t ≤ c + w a
    · rw [if_pos h]
      constructor
      · intro hx
        refine ⟨0, by simp, by simpa using (Option.some_inj.mp hx).symm, ?_, by omega⟩
        rw [cumWeight_one]
        exact h
      · rintro ⟨k, hk, hx, hbound, hleast⟩
        match k with
        | 0 => simp_all
        | m + 1 =>
          exfalso
          have h0 := hleast 0 (by omega)
          rw [cumWeight_one] at h0
          exact h0 h
    · rw [if_neg h]
      rw [ih (c + w a) x]
      constructor
      · rintro ⟨k, hk, hx, hbound, hleast⟩
        refine ⟨k + 1, by simpa using Nat.succ_lt_succ hk, by simpa using hx, ?_, ?_⟩
        · rw [cumWeight_cons, ← add_assoc]
          exact hbound
        · intro j hj
          match j with
          | 0 =>
            rw [cumWeight_one]
            exact h
          | i + 1 =>
            rw [cumWeight_cons, ← add_assoc]
            exact hleast i (by omega)
      · rintro ⟨k, hk, hx, hbound, hleast⟩
        match k with
        | 0 =>
          exfalso
          rw [cumWeight_one] at hbound
          exact h hbound
        | m + 1 =>
          refine ⟨m, by simpa using Nat.lt_of_succ_lt_succ hk, by simpa using hx, ?_, ?_⟩
          · rw [cumWeight_cons, ← add_assoc] at hbound
            exact hbound
          · intro j hj
            have hj1 := hleast (j + 1) (by omega)
            rw [cumWeight_cons, ← add_assoc] at hj1
            exact hj1

theorem wrsWalk_eq_none_iff (w : T → K) (t : K) :
    ∀ (l : List T) (c : K),
      wrsWalk w t l c = none ↔
        ∀ k, k < l.length → ¬ t ≤ c + cumWeight w l (k + 1) := by
  intro l
  induction l with
  | nil => intro c; simp [wrsWalk]
  | cons a l ih =>
    intro c
    rw [wrsWalk]
    by_cases h : t ≤ c + w a
    · rw [if_pos h]
      constructor
      · intro hx; cases hx
      · intro hall
        exfalso
        have h0 := hall 0 (by simp)
        rw [cumWeight_one] at h0
        exact h0 h
    · rw [if_neg h, ih (c + w a)]
      constructor
      · intro hall k hk
        match k with
        | 0 =>
          rw [cumWeight_one]
          exact h
        | m + 1 =>
          rw [cumWeight_cons, ← add_assoc]
          exact hall m (by simpa using Nat.lt_of_succ_lt_succ hk)
      · intro hall k hk
        have hk1 := hall (k + 1) (by simpa using Nat.succ_lt_succ hk)
        rw [cumWeight_cons, ← add_assoc] at hk1
        exact hk1

theorem wrsWalk_mem {w : T → K} {t : K} {l : List T} {c : K} {x : T}
    (h : wrsWalk w t l c = some x) : x ∈ l := by
  obtain ⟨k, hk, hx, -, -⟩ := (wrsWalk_eq_some_iff w t l c x).mp h
  exact hx ▸ l.get_mem k hk

theorem weightedRandomSelect_nil (w : T → K) (u : K) :
    weightedRandomSelect ([] : List T) w u = none := rfl

theorem weightedRandomSelect_cons (a : T) (l : List T) (w : T → K) (u : K) :
    weightedRandomSelect (a :: l) w u =
      if ((a :: l).map w).sum = 0 then some a
      else
        match wrsWalk w (u * ((a :: l).map w).sum) (a :: l) 0 with
        | some item => some item
        | none => (a :: l).getLast? := by
  rw [weightedRandomSelect]
  simp only [List.isEmpty_cons, Bool.false_eq_true, if_false, List.head?]

theorem weightedRandomSelect_eq_none_iff (items : List T) (w : T → K) (u : K) :
    weightedRandomSelect items w u = none ↔ items = [] := by
  match items with
  | [] => simp [weightedRandomSelect_nil]
  | a :: l =>
    rw [weightedRandomSelect_cons]
    simp only [iff_false, ne_eq, reduceCtorEq, List.cons_ne_nil]
    by_cases htot : ((a :: l).map w).sum = 0
    · rw [if_pos htot]
      simp
    · rw [if_neg htot]
      rcases hw : wrsWalk w (u * ((a :: l).map w).sum) (a :: l) 0 with _ | x
      · simp only
        rw [List.getLast?_eq_getLast (a :: l) (by simp)]
        simp
      · simp

theorem weightedRandomSelect_mem {items : List T} {w : T → K} {u : K} {x : T}
    (h : weightedRandomSelect items w u = some x) : x ∈ items := by
  match items with
  | [] => simp [weightedRandomSelect_nil] at h
  | a :: l =>
    rw [weightedRandomSelect_cons] at h
    by_cases htot : ((a :: l).map w).sum = 0
    · rw [if_pos htot] at h
      simp only [Option.some_inj] at h
      simp [← h]
    · rw [if_neg htot] at h
      rcases hw : wrsWalk w (u * ((a :: l).map w).sum) (a :: l) 0 with _ | y
      · rw [hw] at h
        simp only at h
        exact List.mem_of_mem_getLast? (Option.mem_def.mpr h)
      · rw [hw] at h
        simp only [Option.some_inj] at h
        exact h ▸ wrsWalk_mem hw

theorem weightedRandomSelect_first_hit (items : List T) (w : T → K) (u : K)
    (hne : items ≠ []) (htot : 0 < (items.map w).sum) (hu1 : u < 1) :
    ∃ k, ∃ hk : k < items.length,
      weightedRandomSelect items w u = some (items.get ⟨k, hk⟩) ∧
      u * (items.map w).sum ≤ cumWeight w items (k + 1) ∧
      ∀ j < k, ¬ u * (items.map w).sum ≤ cumWeight w items (j + 1) := by
  have hlen : 0 < items.length := List.length_pos.mpr hne
  have hwalk : wrsWalk w (u * (items.map w).sum) items 0 ≠ none := by
    intro hnone
    rw [wrsWalk_eq_none_iff] at hnone
    have hlast := hnone (items.length - 1) (by omega)
    rw [Nat.sub_add_cancel (by omega), zero_add, cumWeight_length] at hlast
    exact hlast (le_of_lt (by nlinarith))
  rcases hw : wrsWalk w (u * (items.map w).sum) items 0 with _ | x
  · exact absurd hw hwalk
  · obtain ⟨k, hk, hx, hbound, hleast⟩ := (wrsWalk_eq_some_iff w _ items 0 x).mp hw
    rw [zero_add] at hbound
    refine ⟨k, hk, ?_, hbound, fun j hj => by simpa using hleast j hj⟩
    match items, hne with
    | a :: l, _ =>
      rw [weightedRandomSelect_cons, if_neg (ne_of_gt htot), hw, hx]

theorem weightedRandomSelect_overshoot (items : List T) (w : T → K) (u : K)
    (hw : ∀ x ∈ items, 0 ≤ w x) (hover : (items.map w).sum < u * (items.map w).sum) :
    weightedRandomSelect items w u = items.getLast? := by
  match items with
  | [] => simp [weightedRandomSelect_nil]
  | a :: l =>
    have htot : ((a :: l).map w).sum ≠ 0 := by
      intro h0
      rw [h0] at hover
      simp at hover
    have hwalk : wrsWalk w (u * ((a :: l).map w).sum) (a :: l) 0 = none := by
      rw [wrsWalk_eq_none_iff]
      intro k hk
      rw [zero_add]
      have hmono := cumWeight_mono w (a :: l) hw (Nat.succ_le_of_lt hk)
      rw [cumWeight_length] at hmono
      exact not_le.mpr (lt_of_le_of_lt hmono hover)
    rw [weightedRandomSelect_cons, if_neg htot, hwalk]

end WalkLemmas

/-- The banana pool computed by `selectWinner`, `buildWheelLayout` and
`calculateProbabilities`: songs with `bananaStickers > 0`. -/
def bananaSongsOf (songs : List (WheelSong K)) : List (WheelSong K) :=
  songs.filter fun s => decide (0 < s.bananaStickers)

/-- Total banana stickers of the banana pool. -/
def totalBananasOf (songs : List (WheelSong K)) : K :=
  ((bananaSongsOf songs).map fun s => s.bananaStickers).sum

/-- Total resolved points of all songs. -/
def totalPointsOf (songs : List (WheelSong K)) : K :=
  (songs.map fun s => resolvePoints s.points).sum

theorem mem_bananaSongsOf {songs : List (WheelSong K)} {x : WheelSong K} :
    x ∈ bananaSongsOf songs ↔ x ∈ songs ∧ 0 < x.bananaStickers := by
  simp [bananaSongsOf, List.mem_filter]

theorem totalBananasOf_nonneg (songs : List (WheelSong K)) :
    0 ≤ totalBananasOf songs := by
  apply List.sum_nonneg
  intro x hx
  obtain ⟨y, hy, rfl⟩ := List.mem_map.mp hx
  exact le_of_lt (mem_bananaSongsOf.mp hy).2

theorem totalBananasOf_pos_iff (songs : List (WheelSong K)) :
    0 < totalBananasOf songs ↔ bananaSongsOf songs ≠ [] := by
  constructor
  · intro h hemp
    rw [totalBananasOf, hemp] at h
    simp at h
  · intro h
    apply List.sum_pos
    · intro x hx
      obtain ⟨y, hy, rfl⟩ := List.mem_map.mp hx
      exact (mem_bananaSongsOf.mp hy).2
    · simpa using h

theorem resolvePoints_pos {p : K} (hp : 0 ≤ p) : 0 < resolvePoints p := by
  rw [resolvePoints]
  by_cases h : p = 0
  · rw [if_pos h]; norm_num
  · rw [if_neg h]
    exact lt_of_le_of_ne hp (Ne.symm h)

theorem totalPointsOf_pos (songs : List (WheelSong K)) (hne : songs ≠ [])
    (hpts : ∀ s ∈ songs, 0 ≤ s.points) : 0 < totalPointsOf songs := by
  apply List.sum_pos
  · intro x hx
    obtain ⟨y, hy, rfl⟩ := List.mem_map.mp hx
    exact resolvePoints_pos (hpts y hy)
  · simpa using hne

theorem selectWinner_ne_nil (songs : List (WheelSong K)) (hne : songs ≠ [])
    (r1 r2 : K) :
    selectWinner songs r1 r2 =
      if 0 < totalBananasOf songs ∧ r1 < 1 / 2 then
        (weightedRandomSelect (bananaSongsOf songs) (fun s => s.bananaStickers) r2).map
          fun w => ⟨w, true⟩
      else
        (weightedRandomSelect songs (fun s => resolvePoints s.points) r2).map
          fun w => ⟨w, false⟩ := by
  rw [selectWinner, if_neg (by simp [hne])]
  rfl

/-- C3: `weightedRandomSelect` returns `null` exactly on the empty list; a
nonempty list with total weight `0` yields the first item; with positive total
weight and `u ∈ [0,1)` it yields the first item whose cumulative weight reaches
`u * total` (upper-inclusive); on weights `[1, 9]`, `u = 0.05` picks the first
item and `u = 0.5` the second. -/
theorem C3_weightedRandomSelect_boundary :
    (∀ (T : Type) (items : List T) (w : T → ℚ) (u : ℚ),
      weightedRandomSelect items w u = none ↔ items = []) ∧
    (∀ (T : Type) (items : List T) (w : T → ℚ) (u : ℚ), items ≠ [] →
      (items.map w).sum = 0 → weightedRandomSelect items w u = items.head?) ∧
    (∀ (T : Type) (items : List T) (w : T → ℚ) (u : ℚ), 0 ≤ u → u < 1 →
      items ≠ [] → 0 < (items.map w).sum →
      ∃ k, ∃ hk : k < items.length,
        weightedRandomSelect items w u = some (items.get ⟨k, hk⟩) ∧
        u * (items.map w).sum ≤ cumWeight w items (k + 1) ∧
        ∀ j < k, ¬ u * (items.map w).sum ≤ cumWeight w items (j + 1)) ∧
    weightedRandomSelect [(1 : ℚ), 9] id (1 / 20) = some 1 ∧
    weightedRandomSelect [(1 : ℚ), 9] id (1 / 2) = some 9 := by
  refine ⟨fun T items w u => weightedRandomSelect_eq_none_iff items w u,
    fun T items w u hne h0 => ?_,
    fun T items w u hu0 hu1 hne htot =>
      weightedRandomSelect_first_hit items w u hne htot hu1,
    by rw [weightedRandomSelect_cons]; norm_num [wrsWalk],
    by rw [weightedRandomSelect_cons]; norm_num [wrsWalk]⟩
  match items, hne with
  | a :: l, _ => rw [weightedRandomSelect_cons, if_pos h0, List.head?]

/-- C3 witness: the third clause of the boundary theorem instantiated at the
concrete list `[1, 9]` with `u = 1/2`. -/
theorem C3_witness :
    ∃ k, ∃ hk : k < ([(1 : ℚ), 9]).length,
      weightedRandomSelect [(1 : ℚ), 9] id (1 / 2) = some (([(1 : ℚ), 9]).get ⟨k, hk⟩) ∧
      (1 / 2 : ℚ) * (([(1 : ℚ), 9]).map id).sum ≤ cumWeight id [(1 : ℚ), 9] (k + 1) ∧
      ∀ j < k, ¬ (1 / 2 : ℚ) * (([(1 : ℚ), 9]).map id).sum ≤ cumWeight id [(1 : ℚ), 9] (j + 1) :=
  C3_weightedRandomSelect_boundary.2.2.1 ℚ [(1 : ℚ), 9] id (1 / 2)
    (by norm_num) (by norm_num) (by decide) (by norm_num)

/-- C8: on the empty item list, `buildWheelLayout` returns the empty layout,
`selectWinner` returns `null` and `calculateProbabilities` returns the empty
map; none of them signals an error. -/
theorem C8_empty_list_behaviour :
    (∀ seed : Option ℤ,
      buildWheelLayout ([] : List (WheelSong ℚ)) seed = Except.ok ⟨[], false, 0, 0⟩) ∧
    (∀ r1 r2 : ℚ, selectWinner ([] : List (WheelSong ℚ)) r1 r2 = none) ∧
    calculateProbabilities ([] : List (WheelSong ℚ)) = [] :=
  ⟨fun _ => rfl, fun _ _ => rfl, rfl⟩

/-- C10: on a nonempty list `selectWinner` is non-null for all numeric inputs
(not only values in `[0,1)`); `weightedRandomSelect` is non-null on every
nonempty list; and when the cumulative walk overshoots the total weight it
falls back to the last item, so the null branch after a non-null
`weightedRandomSelect` is unreachable. -/
theorem C10_selectWinner_never_null :
    (∀ (songs : List (WheelSong ℚ)) (r1 r2 : ℚ), songs ≠ [] →
      (selectWinner songs r1 r2).isSome = true) ∧
    (∀ (T : Type) (items : List T) (w : T → ℚ) (u : ℚ), items ≠ [] →
      (weightedRandomSelect items w u).isSome = true) ∧
    (∀ (T : Type) (items : List T) (w : T → ℚ) (u : ℚ), (∀ x ∈ items, 0 ≤ w x) →
      (items.map w).sum < u * (items.map w).sum →
      weightedRandomSelect items w u = items.getLast?) := by
  have hsome : ∀ (T : Type) (items : List T) (w : T → ℚ) (u : ℚ), items ≠ [] →
      (weightedRandomSelect items w u).isSome = true := by
    intro T items w u hne
    rw [← Option.ne_none_iff_isSome]
    intro hnone
    exact hne ((weightedRandomSelect_eq_none_iff items w u).mp hnone)
  refine ⟨fun songs r1 r2 hne => ?_, hsome,
    fun T items w u hw hover => weightedRandomSelect_overshoot items w u hw hover⟩
  rw [selectWinner_ne_nil songs hne r1 r2]
  by_cases hb : 0 < totalBananasOf songs ∧ r1 < 1 / 2
  · rw [if_pos hb]
    rw [Option.isSome_map']
    exact hsome _ _ _ _ ((totalBananasOf_pos_iff songs).mp hb.1)
  · rw [if_neg hb]
    rw [Option.isSome_map']
    exact hsome _ _ _ _ hne

/-- C10 witness: a concrete nonempty one-song list on which `selectWinner`
returns a value. -/
theorem C10_witness :
    ([(⟨1, "t", "a", 1, 0⟩ : WheelSong ℚ)] ≠ [] ∧
      (selectWinner [(⟨1, "t", "a", 1, 0⟩ : WheelSong ℚ)] 0 0).isSome = true) :=
  ⟨by simp, C10_selectWinner_never_null.1 _ 0 0 (by simp)⟩

section ShuffleLemmas

variable {β : Type}

theorem cons_set_perm (t : List β) :
    ∀ (m : ℕ) (hm : m < t.length) (x : β), (t.get ⟨m, hm⟩ :: t.set m x).Perm (x :: t) := by
  induction t with
  | nil => intro m hm x; simp at hm
  | cons a t ih =>
    intro m hm x
    match m with
    | 0 => simpa using List.Perm.swap x a t
    | m + 1 =>
      have hm2 : m < t.length := by simpa using Nat.lt_of_succ_lt_succ hm
      have step := ih m hm2 x
      simp only [List.set_cons_succ, List.get_cons_succ]
      refine List.Perm.trans (List.Perm.swap a (t.get ⟨m, hm2⟩) _) ?_
      refine List.Perm.trans (List.Perm.cons a step) ?_
      exact List.Perm.swap x a t

theorem set_set_perm (l : List β) :
    ∀ (i j : ℕ) (hi : i < l.length) (hj : j < l.length),
      ((l.set i (l.get ⟨j, hj⟩)).set j (l.get ⟨i, hi⟩)).Perm l := by
  induction l with
  | nil => intro i j hi hj; simp at hi
  | cons a t ih =>
    intro i j hi hj
    match i, j with
    | 0, 0 => simp
    | 0, m + 1 =>
      have hm : m < t.length := by simpa using Nat.lt_of_succ_lt_succ hj
      simp only [List.get_cons_succ, List.get_cons_zero, List.set_cons_zero,
        List.set_cons_succ]
      exact cons_set_perm t m hm a
    | n + 1, 0 =>
      have hn : n < t.length := by simpa using Nat.lt_of_succ_lt_succ hi
      simp only [List.get_cons_succ, List.get_cons_zero, List.set_cons_zero,
        List.set_cons_succ]
      exact cons_set_perm t n hn a
    | n + 1, m + 1 =>
      have hn : n < t.length := by simpa using Nat.lt_of_succ_lt_succ hi
      have hm : m < t.length := by simpa using Nat.lt_of_succ_lt_succ hj
      simp only [List.get_cons_succ, List.set_cons_succ]
      exact List.Perm.cons a (ih n m hn hm)

theorem lcgNext_bounds {s : ℤ} (hs : 0 ≤ s) : 0 ≤ lcgNext s ∧ lcgNext s < 233280 := by
  have h0 : 0 ≤ s * 9301 + 49297 := by nlinarith
  rw [lcgNext, jsMod, if_pos h0]
  exact ⟨Int.emod_nonneg _ (by norm_num), Int.emod_lt_of_pos _ (by norm_num)⟩

theorem randomIndex_bounds {s1 : ℤ} (h0 : 0 ≤ s1) (h1 : s1 < 233280) (n : ℕ) :
    0 ≤ (s1 * ((n : ℤ) + 1)).fdiv 233280 ∧ (s1 * ((n : ℤ) + 1)).fdiv 233280 ≤ n := by
  have hn0 : (0 : ℤ) ≤ (n : ℤ) + 1 := by positivity
  have ha : 0 ≤ s1 * ((n : ℤ) + 1) := mul_nonneg h0 hn0
  rw [Int.fdiv_eq_ediv _ (by norm_num)]
  constructor
  · exact Int.ediv_nonneg ha (by norm_num)
  · have hlt : s1 * ((n : ℤ) + 1) < ((n : ℤ) + 1) * 233280 := by nlinarith
    have := Int.ediv_lt_of_lt_mul (by norm_num) hlt
    omega

theorem JsArray.read_coe {α : Type} (a : JsArray α) (k : ℕ) (hk : k < a.elems.length) :
    a.read (k : ℤ) = a.elems.get ⟨k, hk⟩ := by
  rw [JsArray.read, dif_pos ⟨Int.ofNat_nonneg k, by simpa using hk⟩]
  simp

theorem JsArray.write_coe {α : Type} (a : JsArray α) (k : ℕ) (hk : k < a.elems.length)
    (v : Option α) : a.write (k : ℤ) v = ⟨a.elems.set k v, a.props⟩ := by
  rw [JsArray.write, if_pos (Int.ofNat_nonneg k), if_pos (by simpa using hk)]
  simp

theorem seededShuffleLoop_perm {α : Type} :
    ∀ (n : ℕ) (a : JsArray α) (s : ℤ), 0 ≤ s → n ≤ a.elems.length →
      (seededShuffleLoop a n s).elems.Perm a.elems := by
  intro n
  induction n with
  | zero => intro a s _ _; exact List.Perm.refl _
  | succ ci ih =>
    intro a s hs hn
    obtain ⟨hs1a, hs1b⟩ := lcgNext_bounds hs
    obtain ⟨hr0, hr1⟩ := randomIndex_bounds hs1a hs1b ci
    have hci : ci < a.elems.length := by omega
    have hrltZ : (lcgNext s * ((ci : ℤ) + 1)).fdiv 233280 =
        (((lcgNext s * ((ci : ℤ) + 1)).fdiv 233280).toNat : ℤ) := by omega
    have hrn : ((lcgNext s * ((ci : ℤ) + 1)).fdiv 233280).toNat < a.elems.length := by
      omega
    simp only [seededShuffleLoop]
    rw [hrltZ, JsArray.read_coe a ci hci,
      JsArray.read_coe a _ hrn, JsArray.write_coe a ci hci]
    rw [JsArray.write_coe _ _ (by simpa using hrn)]
    refine List.Perm.trans (ih _ (lcgNext s) hs1a ?_) ?_
    · simp
      omega
    · exact set_set_perm a.elems ci _ hci hrn

theorem seededShuffle_perm {α : Type} (l : List α) (seed : ℤ) (hseed : 0 ≤ seed) :
    (seededShuffle l seed).Perm (l.map some) := by
  unfold seededShuffle
  exact seededShuffleLoop_perm l.length ⟨l.map some, []⟩ seed hseed (by simp)

theorem jsMod_bounds (a : ℤ) {n : ℤ} (hn : 0 < n) : -n < jsMod a n ∧ jsMod a n < n := by
  rw [jsMod]
  by_cases h : 0 ≤ a
  · rw [if_pos h]
    have h1 := Int.emod_nonneg a (ne_of_gt hn)
    have h2 := Int.emod_lt_of_pos a hn
    omega
  · rw [if_neg h]
    have h1 := Int.emod_nonneg (-a) (ne_of_gt hn)
    have h2 := Int.emod_lt_of_pos (-a) hn
    omega

theorem lcgNext_bounds2 (s : ℤ) : -233280 < lcgNext s ∧ lcgNext s < 233280 :=
  jsMod_bounds _ (by norm_num)

theorem randomIndex_le {s1 : ℤ} (h1 : s1 < 233280) (n : ℕ) :
    (s1 * ((n : ℤ) + 1)).fdiv 233280 ≤ n := by
  rw [Int.fdiv_eq_ediv _ (by norm_num)]
  have hn1 : (0 : ℤ) < (n : ℤ) + 1 := by positivity
  have hlt : s1 * ((n : ℤ) + 1) < ((n : ℤ) + 1) * 233280 := by
    nlinarith [mul_pos hn1 (show (0 : ℤ) < 233280 - s1 by omega)]
  have hq := Int.ediv_lt_of_lt_mul (show (0:ℤ) < 233280 by norm_num) hlt
  omega

theorem JsArray.write_neg {α : Type} (a : JsArray α) {i : ℤ} (hi : i < 0)
    (v : Option α) : a.write i v = ⟨a.elems, (i, v) :: a.props⟩ := by
  rw [JsArray.write, if_neg (not_le.mpr hi)]

theorem JsArray.read_neg_of_empty {α : Type} (a : JsArray α) {i : ℤ} (hi : i < 0)
    (hp : a.props = []) : a.read i = none := by
  rw [JsArray.read, dif_neg fun h => absurd h.1 (not_le.mpr hi), hp]
  rfl

theorem seededShuffleLoop_length {α : Type} :
    ∀ (n : ℕ) (a : JsArray α) (s : ℤ), n ≤ a.elems.length →
      (seededShuffleLoop a n s).elems.length = a.elems.length := by
  intro n
  induction n with
  | zero => intro a s _; rfl
  | succ ci ih =>
    intro a s hn
    obtain ⟨hs1a, hs1b⟩ := lcgNext_bounds2 s
    have hle := randomIndex_le hs1b ci
    have hci : ci < a.elems.length := by omega
    simp only [seededShuffleLoop]
    by_cases hrn : 0 ≤ (lcgNext s * ((ci : ℤ) + 1)).fdiv 233280
    · have hrN : ((lcgNext s * ((ci : ℤ) + 1)).fdiv 233280).toNat < a.elems.length := by
        omega
      rw [show ((lcgNext s * ((ci : ℤ) + 1)).fdiv 233280) =
          ((((lcgNext s * ((ci : ℤ) + 1)).fdiv 233280).toNat : ℕ) : ℤ) by omega,
        JsArray.write_coe a ci hci, JsArray.write_coe _ _ (by simpa using hrN)]
      rw [ih _ _ (by simp; omega)]
      simp
    · push_neg at hrn
      rw [JsArray.write_coe a ci hci, JsArray.write_neg _ hrn]
      rw [ih _ _ (by simp; omega)]
      simp

theorem getElem_q_set_set_ne {β : Type} {l : List β} {i1 i2 j : ℕ} {v1 v2 : β}
    (h1 : i1 ≠ j) (h2 : i2 ≠ j) : ((l.set i1 v1).set i2 v2)[j]? = l[j]? := by
  rw [List.getElem?_set_ne h2, List.getElem?_set_ne h1]

theorem seededShuffleLoop_stable {α : Type} :
    ∀ (n : ℕ) (a : JsArray α) (s : ℤ) (j : ℕ), n ≤ a.elems.length → n ≤ j →
      (seededShuffleLoop a n s).elems[j]? = a.elems[j]? := by
  intro n
  induction n with
  | zero => intro a s j _ _; rfl
  | succ ci ih =>
    intro a s j hn hnj
    obtain ⟨hs1a, hs1b⟩ := lcgNext_bounds2 s
    have hle := randomIndex_le hs1b ci
    have hci : ci < a.elems.length := by omega
    simp only [seededShuffleLoop]
    by_cases hr0 : 0 ≤ (lcgNext s * ((ci : ℤ) + 1)).fdiv 233280
    · have hrltZ : (lcgNext s * ((ci : ℤ) + 1)).fdiv 233280 =
          (((lcgNext s * ((ci : ℤ) + 1)).fdiv 233280).toNat : ℤ) := by omega
      have hrn : ((lcgNext s * ((ci : ℤ) + 1)).fdiv 233280).toNat < a.elems.length := by
        omega
      rw [hrltZ, JsArray.read_coe a ci hci, JsArray.read_coe a _ hrn,
        JsArray.write_coe a ci hci]
      rw [JsArray.write_coe _ _ (by simpa using hrn)]
      rw [ih _ (lcgNext s) j (by simp; omega) (by omega)]
      exact getElem_q_set_set_ne (by omega) (by omega)
    · push_neg at hr0
      rw [JsArray.write_coe a ci hci, JsArray.write_neg _ hr0]
      rw [ih _ (lcgNext s) j (by simp; omega) (by omega)]
      exact List.getElem?_set_ne (by omega)

theorem seededShuffleLoop_perm_or_none {α : Type} :
    ∀ (n : ℕ) (a : JsArray α) (s : ℤ), n ≤ a.elems.length → a.props = [] →
      (seededShuffleLoop a n s).elems.Perm a.elems ∨
      (none : Option α) ∈ (seededShuffleLoop a n s).elems := by
  intro n
  induction n with
  | zero => intro a s _ _; exact Or.inl (List.Perm.refl _)
  | succ ci ih =>
    intro a s hn hp
    obtain ⟨hs1a, hs1b⟩ := lcgNext_bounds2 s
    have hle := randomIndex_le hs1b ci
    have hci : ci < a.elems.length := by omega
    simp only [seededShuffleLoop]
    by_cases hr0 : 0 ≤ (lcgNext s * ((ci : ℤ) + 1)).fdiv 233280
    · have hrltZ : (lcgNext s * ((ci : ℤ) + 1)).fdiv 233280 =
          (((lcgNext s * ((ci : ℤ) + 1)).fdiv 233280).toNat : ℤ) := by omega
      have hrn : ((lcgNext s * ((ci : ℤ) + 1)).fdiv 233280).toNat < a.elems.length := by
        omega
      rw [hrltZ, JsArray.read_coe a ci hci, JsArray.read_coe a _ hrn,
        JsArray.write_coe a ci hci]
      rw [JsArray.write_coe _ _ (by simpa using hrn)]
      rcases ih ⟨(a.elems.set ci (a.elems.get
            ⟨((lcgNext s * ((ci : ℤ) + 1)).fdiv 233280).toNat, hrn⟩)).set
            ((lcgNext s * ((ci : ℤ) + 1)).fdiv 233280).toNat
            (a.elems.get ⟨ci, hci⟩), a.props⟩ (lcgNext s)
          (by simp; omega) hp with hperm | hnone
      · exact Or.inl (List.Perm.trans hperm (set_set_perm a.elems ci _ hci hrn))
      · exact Or.inr hnone
    · push_neg at hr0
      rw [JsArray.read_neg_of_empty a hr0 hp, JsArray.write_coe a ci hci,
        JsArray.write_neg _ hr0]
      refine Or.inr (show (none : Option α) ∈ (seededShuffleLoop
        (⟨a.elems.set ci none, ((lcgNext s * ((ci : ℤ) + 1)).fdiv 233280,
          a.read (ci : ℤ)) :: a.props⟩ : JsArray α) ci (lcgNext s)).elems from ?_)
      have hstab := seededShuffleLoop_stable ci
        (⟨a.elems.set ci none, ((lcgNext s * ((ci : ℤ) + 1)).fdiv 233280,
          a.read (ci : ℤ)) :: a.props⟩ : JsArray α)
        (lcgNext s) ci (by simp; omega) (le_refl ci)
      have hval : (seededShuffleLoop
          (⟨a.elems.set ci none, ((lcgNext s * ((ci : ℤ) + 1)).fdiv 233280,
            a.read (ci : ℤ)) :: a.props⟩ : JsArray α) ci (lcgNext s)).elems[ci]? =
          some none := by
        rw [hstab]
        exact List.getElem?_set_self (by simpa using hci)
      exact List.getElem?_mem hval

/-- C9 amended: for every non-negative integer seed, `seededShuffle` returns a
permutation of the input elements (each wrapped in `some`: no element is lost,
duplicated, or replaced by `undefined`); the output is a pure function of
`(items, seed)` and the input list is a separate immutable value. -/
theorem C9_seededShuffle_perm {α : Type} (l : List α) (seed : ℤ) (hseed : 0 ≤ seed) :
    (seededShuffle l seed).Perm (l.map some) :=
  seededShuffle_perm l seed hseed

/-- C9 counterexample: with the integer seed `-6` the JS shuffle walks through a
negative array index, loses an element and returns an array containing
`undefined`; the result is not a permutation of the input. -/
theorem C9_counterexample :
    seededShuffle [1, 2] (-6) = [some 2, none] ∧
    ¬ (seededShuffle [1, 2] (-6)).Perm ([1, 2].map some) := by
  exact ⟨by decide, by decide⟩

/-- C9 witness: the amended permutation statement at seed `0` on `[1, 2, 3]`. -/
theorem C9_witness :
    (0 : ℤ) ≤ 0 ∧ (seededShuffle [1, 2, 3] 0).Perm ([1, 2, 3].map some) :=
  ⟨le_refl 0, C9_seededShuffle_perm [1, 2, 3] 0 (le_refl 0)⟩

end ShuffleLemmas

section LayoutLemmas

theorem perm_of_map_some_perm {α : Type} [DecidableEq α] {l1 l2 : List α}
    (h : (l1.map some).Perm (l2.map some)) : l1.Perm l2 := by
  rw [List.perm_iff_count] at h ⊢
  intro a
  have ha := h (some a)
  rwa [List.count_map_of_injective _ some (Option.some_injective α),
    List.count_map_of_injective _ some (Option.some_injective α)] at ha

theorem jsElems_eq_ok_iff {α : Type} :
    ∀ {om : List (Option α)} {l : List α}, jsElems om = Except.ok l ↔ om = l.map some := by
  intro om
  induction om with
  | nil =>
    intro l
    match l with
    | [] => simp [jsElems]
    | a :: t => simp [jsElems]
  | cons o rest ih =>
    intro l
    match o with
    | none =>
      constructor
      · intro h; simp [jsElems] at h
      · intro h
        match l, h with
        | a :: t, h => simp at h
    | some a =>
      match l with
      | [] =>
        constructor
        · intro h
          rw [jsElems] at h
          rcases hr : jsElems rest with e | t <;> rw [hr] at h <;> simp [Except.map] at h
        · intro h; simp at h
      | b :: t =>
        constructor
        · intro h
          rw [jsElems] at h
          rcases hr : jsElems rest with e | t2 <;> rw [hr] at h <;>
            simp only [Except.map, Except.ok.injEq, List.cons.injEq, reduceCtorEq] at h
          obtain ⟨rfl, rfl⟩ := h
          simp [ih.mp hr]
        · intro h
          simp only [List.map_cons, List.cons.injEq, Option.some.injEq] at h
          obtain ⟨rfl, hrest⟩ := h
          rw [jsElems, ih.mpr hrest]
          rfl

theorem seededShuffle_ok_perm {α : Type} [DecidableEq α] (l : List α) (seed : ℤ)
    {l2 : List α} (h : jsElems (seededShuffle l seed) = Except.ok l2) : l2.Perm l := by
  have hmm := jsElems_eq_ok_iff.mp h
  rcases seededShuffleLoop_perm_or_none l.length ⟨l.map some, []⟩ seed (by simp) rfl
    with hperm | hnone
  · apply perm_of_map_some_perm
    rw [← hmm]
    exact hperm
  · exfalso
    have hmem : (none : Option α) ∈ seededShuffle l seed := hnone
    rw [hmm] at hmem
    simp at hmem

theorem all_some_eq_map {α : Type} :
    ∀ (om : List (Option α)), (∀ x ∈ om, x ≠ none) → ∃ l2 : List α, om = l2.map some
  | [], _ => ⟨[], rfl⟩
  | none :: rest, hall => absurd rfl (hall none (by simp))
  | some a :: rest, hall => by
    obtain ⟨l2, hl2⟩ := all_some_eq_map rest fun x hx => hall x (by simp [hx])
    exact ⟨a :: l2, by simp [hl2]⟩

theorem jsElems_perm {α : Type} [DecidableEq α] {om : List (Option α)} {l : List α}
    (h : om.Perm (l.map some)) : ∃ l2, jsElems om = Except.ok l2 ∧ l2.Perm l := by
  have hall : ∀ x ∈ om, x ≠ none := by
    intro x hx hxn
    have hmem := h.mem_iff.mp hx
    rw [hxn] at hmem
    simp at hmem
  obtain ⟨l2, rfl⟩ := all_some_eq_map om hall
  exact ⟨l2, jsElems_eq_ok_iff.mpr rfl, perm_of_map_some_perm h⟩

theorem poolSegments_map_song (isB : Bool) (tag : String) (w : WheelSong K → K)
    (tot deg : K) : ∀ (l : List (WheelSong K)) (start : K),
      ((poolSegments isB tag w tot deg l start).1.map fun g => g.song) = l := by
  intro l
  induction l with
  | nil => intro start; rfl
  | cons a t ih => intro start; simp only [poolSegments, List.map_cons, ih]

theorem poolSegments_mem (isB : Bool) (tag : String) (w : WheelSong K → K)
    (tot deg : K) : ∀ (l : List (WheelSong K)) (start : K) (g : WheelSegment K),
      g ∈ (poolSegments isB tag w tot deg l start).1 →
      g.isBananaSection = isB ∧ g.angle = w g.song / tot * deg ∧ g.song ∈ l ∧
        g.segmentId = tag ++ toString g.song.id := by
  intro l
  induction l with
  | nil => intro start g hg; simp [poolSegments] at hg
  | cons a t ih =>
    intro start g hg
    rw [poolSegments] at hg
    rcases List.mem_cons.mp hg with rfl | hg2
    · exact ⟨rfl, rfl, by simp, rfl⟩
    · obtain ⟨h1, h2, h3, h4⟩ := ih _ g hg2
      exact ⟨h1, h2, by simp [h3], h4⟩

theorem poolSegments_map_angle (isB : Bool) (tag : String) (w : WheelSong K → K)
    (tot deg : K) : ∀ (l : List (WheelSong K)) (start : K),
      ((poolSegments isB tag w tot deg l start).1.map fun g => g.angle) =
        l.map fun s => w s / tot * deg := by
  intro l
  induction l with
  | nil => intro start; rfl
  | cons a t ih => intro start; simp only [poolSegments, List.map_cons, ih]

theorem buildWheelLayout_ok_struct (songs : List (WheelSong K)) (hne : songs ≠ [])
    {seed : Option ℤ} {L : WheelLayout K}
    (hok : buildWheelLayout songs seed = Except.ok L) :
    ∃ sb sa : List (WheelSong K), ∃ start2 : K,
      (seed = none → sb = bananaSongsOf songs ∧ sa = songs) ∧
      (∀ sd, seed = some sd → seededShuffle (bananaSongsOf songs) sd = sb.map some ∧
        seededShuffle songs (sd + 1) = sa.map some) ∧
      L.hasBananaSection = decide (0 < totalBananasOf songs) ∧
      L.totalBananas = totalBananasOf songs ∧
      L.totalPoints = totalPointsOf songs ∧
      L.segments =
        (if 0 < totalBananasOf songs then
          (poolSegments true "banana-" (fun s => s.bananaStickers)
            (totalBananasOf songs) 180 sb (-90)).1
         else []) ++
        (poolSegments false "points-" (fun s => resolvePoints s.points)
          (totalPointsOf songs)
          (if 0 < totalBananasOf songs then 180 else 360) sa start2).1 := by
  rw [buildWheelLayout, if_neg (by simp [hne])] at hok
  match seed with
  | none =>
    simp only [bind, Except.bind, pure, Except.pure, Except.ok.injEq] at hok
    refine ⟨bananaSongsOf songs, songs,
      (if 0 < totalBananasOf songs then
        poolSegments true "banana-" (fun s => s.bananaStickers)
          (totalBananasOf songs) 180 (bananaSongsOf songs) (-90)
       else ([], -90)).2, ?_⟩
    refine ⟨fun _ => ⟨rfl, rfl⟩, ?_⟩
    refine ⟨fun sd h => Option.noConfusion h, ?_⟩
    refine ⟨?_, ?_, ?_, ?_⟩ <;>
      rw [← hok] <;>
      simp [apply_ite Prod.fst, bananaSongsOf, totalBananasOf, totalPointsOf]
  | some sd =>
    simp only [bind, Except.bind] at hok
    rcases h1 : jsElems (seededShuffle
        (songs.filter fun s => decide (0 < s.bananaStickers)) sd) with e1 | sb <;>
      rw [h1] at hok
    · simp at hok
    · rcases h2 : jsElems (seededShuffle songs (sd + 1)) with e2 | sa <;>
        rw [h2] at hok
      · simp at hok
      · simp only [pure, Except.pure, Except.ok.injEq] at hok
        refine ⟨sb, sa,
          (if 0 < totalBananasOf songs then
            poolSegments true "banana-" (fun s => s.bananaStickers)
              (totalBananasOf songs) 180 sb (-90)
           else ([], -90)).2, ?_⟩
        refine ⟨fun h => Option.noConfusion h, ?_⟩
        refine ⟨fun sd2 h => ?_, ?_⟩
        · cases h
          exact ⟨jsElems_eq_ok_iff.mp h1, jsElems_eq_ok_iff.mp h2⟩
        refine ⟨?_, ?_, ?_, ?_⟩
        all_goals
          rw [← hok] <;>
          simp [apply_ite Prod.fst, bananaSongsOf, totalBananasOf, totalPointsOf]

theorem buildWheelLayout_ok_parts (songs : List (WheelSong K)) (hne : songs ≠ [])
    {seed : Option ℤ} {L : WheelLayout K}
    (hok : buildWheelLayout songs seed = Except.ok L) :
    ∃ sb sa : List (WheelSong K), ∃ start2 : K,
      sb.Perm (bananaSongsOf songs) ∧ sa.Perm songs ∧
      L.hasBananaSection = decide (0 < totalBananasOf songs) ∧
      L.totalBananas = totalBananasOf songs ∧
      L.totalPoints = totalPointsOf songs ∧
      L.segments =
        (if 0 < totalBananasOf songs then
          (poolSegments true "banana-" (fun s => s.bananaStickers)
            (totalBananasOf songs) 180 sb (-90)).1
         else []) ++
        (poolSegments false "points-" (fun s => resolvePoints s.points)
          (totalPointsOf songs)
          (if 0 < totalBananasOf songs then 180 else 360) sa start2).1 := by
  obtain ⟨sb, sa, start2, hnone, hsome, h3, h4, h5, h6⟩ :=
    buildWheelLayout_ok_struct songs hne hok
  refine ⟨sb, sa, start2, ?_, ?_, h3, h4, h5, h6⟩
  · match seed with
    | none => rw [(hnone rfl).1]
    | some sd =>
      exact seededShuffle_ok_perm _ sd (jsElems_eq_ok_iff.mpr (hsome sd rfl).1)
  · match seed with
    | none => rw [(hnone rfl).2]
    | some sd =>
      exact seededShuffle_ok_perm _ (sd + 1) (jsElems_eq_ok_iff.mpr (hsome sd rfl).2)

end LayoutLemmas

section AngleLemmas

theorem totalBananasOf_pos_iff_exists (songs : List (WheelSong K)) :
    0 < totalBananasOf songs ↔ ∃ s ∈ songs, 0 < s.bananaStickers := by
  rw [totalBananasOf_pos_iff]
  constructor
  · intro h
    obtain ⟨x, hx⟩ := List.exists_mem_of_ne_nil _ h
    exact ⟨x, (mem_bananaSongsOf.mp hx).1, (mem_bananaSongsOf.mp hx).2⟩
  · rintro ⟨s, hs, hpos⟩ hemp
    have hmem : s ∈ bananaSongsOf songs := mem_bananaSongsOf.mpr ⟨hs, hpos⟩
    rw [hemp] at hmem
    simp at hmem

theorem sum_map_div_mul_aux {T : Type} (l : List T) (f : T → K) (t d : K) :
    (l.map fun x => f x / t * d).sum = (l.map f).sum / t * d := by
  induction l with
  | nil => simp
  | cons a l ih =>
    simp only [List.map_cons, List.sum_cons]
    rw [ih]
    ring

theorem sum_map_div_mul {T : Type} (l : List T) (f : T → K) (t d : K) (ht : t ≠ 0)
    (hsum : (l.map f).sum = t) : (l.map fun x => f x / t * d).sum = d := by
  rw [sum_map_div_mul_aux, hsum, div_self ht, one_mul]

theorem buildWheelLayout_none_isOk (songs : List (WheelSong K)) :
    ∃ L, buildWheelLayout songs none = Except.ok L := by
  by_cases hne : songs = []
  · exact ⟨⟨[], false, 0, 0⟩, by rw [hne]; rfl⟩
  · rw [buildWheelLayout, if_neg (by simp [hne])]
    exact ⟨_, rfl⟩

/-- C6: in any layout built from a nonempty list with non-negative weights, the
banana-section angles sum to 180 degrees whenever some song carries banana
stickers, and the points-section angles sum to 360 degrees with no banana pool
and to 180 degrees otherwise (exactly, in exact arithmetic). -/
theorem C6_angle_sums (songs : List (WheelSong ℚ)) (hne : songs ≠ [])
    (hw : ∀ s ∈ songs, 0 ≤ s.points ∧ 0 ≤ s.bananaStickers)
    (seed : Option ℤ) (L : WheelLayout ℚ)
    (hok : buildWheelLayout songs seed = Except.ok L) :
    ((∃ s ∈ songs, 0 < s.bananaStickers) →
      ((L.segments.filter fun g => g.isBananaSection).map fun g => g.angle).sum = 180) ∧
    ((L.segments.filter fun g => !g.isBananaSection).map fun g => g.angle).sum =
      if ∃ s ∈ songs, 0 < s.bananaStickers then 180 else 360 := by
  obtain ⟨sb, sa, start2, hpb, hpa, hflag, htb, htp, hsegs⟩ :=
    buildWheelLayout_ok_parts songs hne hok
  have htpos : 0 < totalPointsOf songs :=
    totalPointsOf_pos songs hne fun s hs => (hw s hs).1
  have hBall : ∀ g ∈ (poolSegments true "banana-" (fun s => s.bananaStickers)
      (totalBananasOf songs) 180 sb (-90)).1, g.isBananaSection = true :=
    fun g hg => (poolSegments_mem _ _ _ _ _ sb _ g hg).1
  have hPall : ∀ g ∈ (poolSegments false "points-" (fun s => resolvePoints s.points)
      (totalPointsOf songs) (if 0 < totalBananasOf songs then 180 else 360)
      sa start2).1, g.isBananaSection = false :=
    fun g hg => (poolSegments_mem _ _ _ _ _ sa _ g hg).1
  constructor
  · intro hex
    have hb : 0 < totalBananasOf songs := (totalBananasOf_pos_iff_exists songs).mpr hex
    rw [hsegs, if_pos hb, List.filter_append]
    rw [List.filter_eq_self.mpr (fun g hg => by simp [hBall g hg]),
      List.filter_eq_nil_iff.mpr (fun g hg => by simp [hPall g hg]),
      List.append_nil, poolSegments_map_angle]
    rw [(hpb.map fun s => s.bananaStickers / totalBananasOf songs * 180).sum_eq]
    exact sum_map_div_mul _ _ _ _ (ne_of_gt hb) rfl
  · by_cases hb : 0 < totalBananasOf songs
    · rw [if_pos ((totalBananasOf_pos_iff_exists songs).mp hb)]
      rw [hsegs, if_pos hb, List.filter_append]
      rw [List.filter_eq_nil_iff.mpr (fun g hg => by simp [hBall g hg]),
        List.filter_eq_self.mpr (fun g hg => by simp [hPall g hg]),
        List.nil_append, poolSegments_map_angle]
      simp only [if_pos hb]
      rw [(hpa.map fun s => resolvePoints s.points / totalPointsOf songs * 180).sum_eq]
      exact sum_map_div_mul _ _ _ _ (ne_of_gt htpos) rfl
    · rw [if_neg fun hex => hb ((totalBananasOf_pos_iff_exists songs).mpr hex)]
      rw [hsegs, if_neg hb, List.nil_append]
      rw [List.filter_eq_self.mpr (fun g hg => by simp [hPall g hg]),
        poolSegments_map_angle]
      simp only [if_neg hb]
      rw [(hpa.map fun s => resolvePoints s.points / totalPointsOf songs * 360).sum_eq]
      exact sum_map_div_mul _ _ _ _ (ne_of_gt htpos) rfl

/-- C6 witness: the angle-sum theorem applied to a concrete two-song list (one
banana song), with no shuffle seed. -/
theorem C6_witness :
    ∃ L : WheelLayout ℚ,
      buildWheelLayout
        [(⟨1, "t1", "a1", 10, 1⟩ : WheelSong ℚ), ⟨2, "t2", "a2", 30, 0⟩] none =
        Except.ok L ∧
      (((∃ s ∈ [(⟨1, "t1", "a1", 10, 1⟩ : WheelSong ℚ), ⟨2, "t2", "a2", 30, 0⟩],
          0 < s.bananaStickers) →
        ((L.segments.filter fun g => g.isBananaSection).map fun g => g.angle).sum = 180) ∧
      ((L.segments.filter fun g => !g.isBananaSection).map fun g => g.angle).sum =
        if ∃ s ∈ [(⟨1, "t1", "a1", 10, 1⟩ : WheelSong ℚ), ⟨2, "t2", "a2", 30, 0⟩],
            0 < s.bananaStickers then 180 else 360) := by
  obtain ⟨L, hok⟩ := buildWheelLayout_none_isOk
    [(⟨1, "t1", "a1", 10, 1⟩ : WheelSong ℚ), ⟨2, "t2", "a2", 30, 0⟩]
  exact ⟨L, hok, C6_angle_sums _ (by simp) (by norm_num) none L hok⟩

end AngleLemmas

section MembershipLemmas

/-- C7: in any layout built from a list with distinct
ids, every song owns exactly one points segment, and owns a banana segment iff
its sticker count is positive. -/
theorem C7_segment_multiplicity (songs : List (WheelSong ℚ))
    (hnodup : (songs.map fun t => t.id).Nodup)
    (seed : Option ℤ) (L : WheelLayout ℚ)
    (hok : buildWheelLayout songs seed = Except.ok L)
    (s : WheelSong ℚ) (hs : s ∈ songs) :
    (L.segments.filter fun g => !g.isBananaSection && g.song.id == s.id).length = 1 ∧
    ((∃ g ∈ L.segments, g.isBananaSection = true ∧ g.song.id = s.id) ↔
      0 < s.bananaStickers) := by
  have hne : songs ≠ [] := fun h => by rw [h] at hs; simp at hs
  obtain ⟨sb, sa, start2, hpb, hpa, hflag, htb, htp, hsegs⟩ :=
    buildWheelLayout_ok_parts songs hne hok
  have hBall : ∀ g ∈ (poolSegments true "banana-" (fun s => s.bananaStickers)
      (totalBananasOf songs) 180 sb (-90)).1,
      g.isBananaSection = true ∧ g.song ∈ sb :=
    fun g hg => ⟨(poolSegments_mem _ _ _ _ _ sb _ g hg).1,
      (poolSegments_mem _ _ _ _ _ sb _ g hg).2.2.1⟩
  have hPall : ∀ g ∈ (poolSegments false "points-" (fun s => resolvePoints s.points)
      (totalPointsOf songs) (if 0 < totalBananasOf songs then 180 else 360)
      sa start2).1, g.isBananaSection = false :=
    fun g hg => (poolSegments_mem _ _ _ _ _ sa _ g hg).1
  constructor
  · rw [hsegs, List.filter_append]
    have hbetc : ((if 0 < totalBananasOf songs then
        (poolSegments true "banana-" (fun s => s.bananaStickers)
          (totalBananasOf songs) 180 sb (-90)).1
        else []).filter fun g => !g.isBananaSection && g.song.id == s.id) = [] := by
      by_cases hb : 0 < totalBananasOf songs
      · rw [if_pos hb]
        exact List.filter_eq_nil_iff.mpr fun g hg => by simp [(hBall g hg).1]
      · rw [if_neg hb]; rfl
    rw [hbetc, List.nil_append]
    have hcongr : List.filter (fun g => !g.isBananaSection && g.song.id == s.id)
        (poolSegments false "points-" (fun s => resolvePoints s.points)
          (totalPointsOf songs) (if 0 < totalBananasOf songs then 180 else 360)
          sa start2).1 =
        List.filter (fun g => g.song.id == s.id)
          (poolSegments false "points-" (fun s => resolvePoints s.points)
            (totalPointsOf songs) (if 0 < totalBananasOf songs then 180 else 360)
            sa start2).1 :=
      List.filter_congr fun g hg => by simp [hPall g hg]
    rw [hcongr, ← List.countP_eq_length_filter]
    have hmapped : List.countP (fun g => g.song.id == s.id)
        (poolSegments false "points-" (fun s => resolvePoints s.points)
          (totalPointsOf songs) (if 0 < totalBananasOf songs then 180 else 360)
          sa start2).1 = List.countP (fun x => x.id == s.id) sa := by
      conv_rhs => rw [← poolSegments_map_song false "points-"
        (fun s => resolvePoints s.points) (totalPointsOf songs)
        (if 0 < totalBananasOf songs then 180 else 360) sa start2]
      rw [List.countP_map]
      rfl
    rw [hmapped, hpa.countP_eq]
    have hcount : List.countP (fun x => x.id == s.id) songs =
        List.count s.id (songs.map fun t => t.id) := by
      rw [List.count, List.countP_map]
      rfl
    rw [hcount]
    exact List.count_eq_one_of_mem hnodup (List.mem_map_of_mem _ hs)
  · constructor
    · rintro ⟨g, hg, hgb, hgid⟩
      rw [hsegs] at hg
      rcases List.mem_append.mp hg with hgB | hgP
      · by_cases hb : 0 < totalBananasOf songs
        · rw [if_pos hb] at hgB
          have hsong : g.song ∈ bananaSongsOf songs := hpb.mem_iff.mp (hBall g hgB).2
          have hgs : g.song = s :=
            List.inj_on_of_nodup_map hnodup (mem_bananaSongsOf.mp hsong).1 hs hgid
          rw [← hgs]
          exact (mem_bananaSongsOf.mp hsong).2
        · rw [if_neg hb] at hgB
          simp at hgB
      · rw [hPall g hgP] at hgb
        cases hgb
    · intro hpos
      have hmemB : s ∈ bananaSongsOf songs := mem_bananaSongsOf.mpr ⟨hs, hpos⟩
      have hb : 0 < totalBananasOf songs := (totalBananasOf_pos_iff songs).mpr fun h => by
        rw [h] at hmemB; simp at hmemB
      have hsb : s ∈ sb := hpb.mem_iff.mpr hmemB
      have hmap := poolSegments_map_song true "banana-" (fun s => s.bananaStickers)
        (totalBananasOf songs) 180 sb (-90)
      have hsmem : s ∈ (poolSegments true "banana-" (fun s => s.bananaStickers)
          (totalBananasOf songs) 180 sb (-90)).1.map fun g => g.song := by
        rw [hmap]; exact hsb
      obtain ⟨g, hg, hgs⟩ := List.mem_map.mp hsmem
      refine ⟨g, ?_, (poolSegments_mem _ _ _ _ _ sb _ g hg).1, by rw [hgs]⟩
      rw [hsegs, if_pos hb]
      exact List.mem_append_left _ hg

/-- C7 witness: the multiplicity theorem applied to the same concrete two-song
list, at its banana song. -/
theorem C7_witness :
    ∃ L : WheelLayout ℚ,
      buildWheelLayout
        [(⟨1, "t1", "a1", 10, 1⟩ : WheelSong ℚ), ⟨2, "t2", "a2", 30, 0⟩] none =
        Except.ok L ∧
      ((L.segments.filter fun g =>
          !g.isBananaSection && g.song.id == (1 : ℤ)).length = 1 ∧
        ((∃ g ∈ L.segments, g.isBananaSection = true ∧ g.song.id = (1 : ℤ)) ↔
          (0 : ℚ) < 1)) := by
  obtain ⟨L, hok⟩ := buildWheelLayout_none_isOk
    [(⟨1, "t1", "a1", 10, 1⟩ : WheelSong ℚ), ⟨2, "t2", "a2", 30, 0⟩]
  exact ⟨L, hok, C7_segment_multiplicity _ (by simp) none L hok
    ⟨1, "t1", "a1", 10, 1⟩ (by simp)⟩

/-- C2: any winner returned by `selectWinner` appears, with the same pool flag,
as a segment of the layout built from the same list. -/
theorem C2_winner_layout_agreement (songs : List (WheelSong ℚ)) (r1 r2 : ℚ)
    (h10 : 0 ≤ r1) (h11 : r1 < 1) (h20 : 0 ≤ r2) (h21 : r2 < 1)
    (res : SelectResult ℚ) (hsel : selectWinner songs r1 r2 = some res)
    (seed : Option ℤ) (L : WheelLayout ℚ)
    (hok : buildWheelLayout songs seed = Except.ok L) :
    ∃ g ∈ L.segments, g.song.id = res.winner.id ∧
      g.isBananaSection = res.fromBananaSection := by
  have hne : songs ≠ [] := by
    intro h
    rw [h] at hsel
    simp [selectWinner] at hsel
  obtain ⟨sb, sa, start2, hpb, hpa, hflag, htb, htp, hsegs⟩ :=
    buildWheelLayout_ok_parts songs hne hok
  rw [selectWinner_ne_nil songs hne r1 r2] at hsel
  by_cases hcond : 0 < totalBananasOf songs ∧ r1 < 1 / 2
  · rw [if_pos hcond] at hsel
    obtain ⟨w, hw, hres⟩ := Option.map_eq_some'.mp hsel
    have hwsb : w ∈ sb := hpb.mem_iff.mpr (weightedRandomSelect_mem hw)
    have hmap := poolSegments_map_song true "banana-" (fun s => s.bananaStickers)
      (totalBananasOf songs) 180 sb (-90)
    have hwm : w ∈ (poolSegments true "banana-" (fun s => s.bananaStickers)
        (totalBananasOf songs) 180 sb (-90)).1.map fun g => g.song := by
      rw [hmap]; exact hwsb
    obtain ⟨g, hg, hgs⟩ := List.mem_map.mp hwm
    refine ⟨g, ?_, ?_, ?_⟩
    · rw [hsegs, if_pos hcond.1]
      exact List.mem_append_left _ hg
    · rw [hgs, ← hres]
    · rw [(poolSegments_mem _ _ _ _ _ sb _ g hg).1, ← hres]
  · rw [if_neg hcond] at hsel
    obtain ⟨w, hw, hres⟩ := Option.map_eq_some'.mp hsel
    have hwsa : w ∈ sa := hpa.mem_iff.mpr (weightedRandomSelect_mem hw)
    have hmap := poolSegments_map_song false "points-" (fun s => resolvePoints s.points)
      (totalPointsOf songs) (if 0 < totalBananasOf songs then 180 else 360) sa start2
    have hwm : w ∈ (poolSegments false "points-" (fun s => resolvePoints s.points)
        (totalPointsOf songs) (if 0 < totalBananasOf songs then 180 else 360)
        sa start2).1.map fun g => g.song := by
      rw [hmap]; exact hwsa
    obtain ⟨g, hg, hgs⟩ := List.mem_map.mp hwm
    refine ⟨g, ?_, ?_, ?_⟩
    · rw [hsegs]
      exact List.mem_append_right _ hg
    · rw [hgs, ← hres]
    · rw [(poolSegments_mem _ _ _ _ _ sa _ g hg).1, ← hres]

/-- C2 witness: the agreement theorem at a concrete two-song list with a draw
landing in the banana section. -/
theorem C2_witness :
    ∃ res : SelectResult ℚ, ∃ L : WheelLayout ℚ,
      selectWinner [(⟨1, "t1", "a1", 10, 1⟩ : WheelSong ℚ), ⟨2, "t2", "a2", 30, 0⟩]
        (3 / 10) (1 / 2) = some res ∧
      buildWheelLayout
        [(⟨1, "t1", "a1", 10, 1⟩ : WheelSong ℚ), ⟨2, "t2", "a2", 30, 0⟩] none =
        Except.ok L ∧
      ∃ g ∈ L.segments, g.song.id = res.winner.id ∧
        g.isBananaSection = res.fromBananaSection := by
  rcases hsel : selectWinner
      [(⟨1, "t1", "a1", 10, 1⟩ : WheelSong ℚ), ⟨2, "t2", "a2", 30, 0⟩]
      (3 / 10) (1 / 2) with _ | res
  · exact absurd hsel (by
      rw [selectWinner_ne_nil _ (by simp) _ _]
      norm_num [totalBananasOf, bananaSongsOf, weightedRandomSelect_cons, wrsWalk]
      simp)
  · obtain ⟨L, hok⟩ := buildWheelLayout_none_isOk
      [(⟨1, "t1", "a1", 10, 1⟩ : WheelSong ℚ), ⟨2, "t2", "a2", 30, 0⟩]
    exact ⟨res, L, rfl, hok, C2_winner_layout_agreement _ _ _ (by norm_num)
      (by norm_num) (by norm_num) (by norm_num) res hsel none L hok⟩

end MembershipLemmas

section ProbabilityLemmas

/-- The probability entry `calculateProbabilities` computes for one song. -/
def probEntry (songs : List (WheelSong K)) (song : WheelSong K) : SongProbability K :=
  let bananaProbability : K :=
    if 0 < totalBananasOf songs ∧ 0 < song.bananaStickers then
      1 / 2 * (song.bananaStickers / totalBananasOf songs)
    else 0
  let pointsProbability : K :=
    if 0 < totalBananasOf songs then
      1 / 2 * (resolvePoints song.points / totalPointsOf songs)
    else resolvePoints song.points / totalPointsOf songs
  ⟨bananaProbability, pointsProbability, bananaProbability + pointsProbability⟩

theorem calculateProbabilities_eq_foldl (songs : List (WheelSong K)) :
    calculateProbabilities songs =
      songs.foldl (fun result song => jsMapSet result song.id (probEntry songs song))
        [] := rfl

theorem jsMapSet_fresh {β : Type} (m : List (ℤ × β)) (k : ℤ) (v : β)
    (h : ∀ p ∈ m, p.1 ≠ k) : jsMapSet m k v = m ++ [(k, v)] := by
  rw [jsMapSet, if_neg]
  intro hany
  obtain ⟨p, hp, hbeq⟩ := List.any_eq_true.mp hany
  exact h p hp (by simpa using hbeq)

theorem foldl_jsMapSet_append (f : WheelSong K → SongProbability K) :
    ∀ (l : List (WheelSong K)) (acc : List (ℤ × SongProbability K)),
      (∀ p ∈ acc, ∀ x ∈ l, p.1 ≠ x.id) → (l.map fun x => x.id).Nodup →
      l.foldl (fun result song => jsMapSet result song.id (f song)) acc =
        acc ++ l.map fun x => (x.id, f x) := by
  intro l
  induction l with
  | nil => intro acc _ _; simp
  | cons a t ih =>
    intro acc hfresh hnodup
    rw [List.map_cons, List.nodup_cons] at hnodup
    obtain ⟨hnotin, hnodup2⟩ := hnodup
    rw [List.foldl_cons, jsMapSet_fresh _ _ _ fun p hp => hfresh p hp a (by simp)]
    rw [ih (acc ++ [(a.id, f a)]) ?_ hnodup2]
    · simp
    · intro p hp x hx
      rcases List.mem_append.mp hp with hp1 | hp2
      · exact hfresh p hp1 x (by simp [hx])
      · rw [List.mem_singleton.mp hp2]
        intro heq
        have hxid : x.id ∈ t.map fun x => x.id := List.mem_map_of_mem (fun x => x.id) hx
        rw [← heq] at hxid
        exact hnotin hxid

theorem calculateProbabilities_eq_map (songs : List (WheelSong K))
    (hnodup : (songs.map fun x => x.id).Nodup) :
    calculateProbabilities songs = songs.map fun x => (x.id, probEntry songs x) := by
  rw [calculateProbabilities_eq_foldl,
    foldl_jsMapSet_append _ songs [] (by simp) hnodup, List.nil_append]

theorem jsMapGet_map_entry {β : Type} (f : WheelSong K → β) :
    ∀ (l : List (WheelSong K)), (l.map fun x => x.id).Nodup →
      ∀ s ∈ l, jsMapGet (l.map fun x => (x.id, f x)) s.id = some (f s) := by
  intro l
  induction l with
  | nil => intro _ s hs; simp at hs
  | cons a t ih =>
    intro hnodup s hs
    rw [List.map_cons, List.nodup_cons] at hnodup
    obtain ⟨hnotin, hnodup2⟩ := hnodup
    rcases List.mem_cons.mp hs with rfl | hst
    · simp [jsMapGet, List.find?]
    · have hne3 : (((a.id, f a) : ℤ × β).1 == s.id) = false := by
        simp only [beq_eq_false_iff_ne, ne_eq]
        intro heq
        have hsid : s.id ∈ t.map fun x => x.id := List.mem_map_of_mem (fun x => x.id) hst
        rw [← heq] at hsid
        exact hnotin hsid
      rw [List.map_cons, jsMapGet]
      simp only [List.find?, hne3]
      exact ih hnodup2 s hst

theorem calculateProbabilities_get (songs : List (WheelSong K))
    (hnodup : (songs.map fun x => x.id).Nodup) (s : WheelSong K) (hs : s ∈ songs) :
    jsMapGet (calculateProbabilities songs) s.id = some (probEntry songs s) := by
  rw [calculateProbabilities_eq_map songs hnodup]
  exact jsMapGet_map_entry _ songs hnodup s hs

theorem sum_map_add_split {T : Type} (l : List T) (f g : T → K) :
    (l.map fun x => f x + g x).sum = (l.map f).sum + (l.map g).sum := by
  induction l with
  | nil => simp
  | cons a t ih =>
    simp only [List.map_cons, List.sum_cons]
    rw [ih]
    ring

theorem sum_map_ite_filter {T : Type} (l : List T) (p : T → Prop) [DecidablePred p]
    (f : T → K) :
    (l.map fun x => if p x then f x else 0).sum =
      ((l.filter fun x => decide (p x)).map f).sum := by
  induction l with
  | nil => rfl
  | cons a t ih =>
    by_cases hpa : p a <;> simp [List.filter_cons, hpa, ih]

/-- C5: on every nonempty list with non-negative weights and distinct ids, the
`totalProbability` values of `calculateProbabilities` sum to exactly 1 in exact
arithmetic. -/
theorem C5_probabilities_sum_to_one (songs : List (WheelSong ℚ)) (hne : songs ≠ [])
    (hw : ∀ s ∈ songs, 0 ≤ s.points ∧ 0 ≤ s.bananaStickers)
    (hnodup : (songs.map fun x => x.id).Nodup) :
    ((calculateProbabilities songs).map fun p => p.2.totalProbability).sum = 1 := by
  have htpos : 0 < totalPointsOf songs :=
    totalPointsOf_pos songs hne fun s hs => (hw s hs).1
  rw [calculateProbabilities_eq_map songs hnodup, List.map_map]
  have hsplit : ((songs.map fun x =>
      ((fun p : ℤ × SongProbability ℚ => p.2.totalProbability) ∘
        fun x => (x.id, probEntry songs x)) x)).sum =
      (songs.map fun x => (probEntry songs x).bananaProbability).sum +
      (songs.map fun x => (probEntry songs x).pointsProbability).sum := by
    rw [← sum_map_add_split]
    rfl
  rw [hsplit]
  by_cases hb : 0 < totalBananasOf songs
  · have hbp : (songs.map fun x => (probEntry songs x).bananaProbability).sum = 1 / 2 := by
      have hfun : (fun x : WheelSong ℚ => (probEntry songs x).bananaProbability) =
          fun x => if 0 < x.bananaStickers then
            x.bananaStickers / totalBananasOf songs * (1 / 2) else 0 := by
        funext x
        simp only [probEntry, hb, true_and]
        by_cases hx : 0 < x.bananaStickers <;> simp [hx] <;> ring
      rw [hfun, sum_map_ite_filter songs (fun x => 0 < x.bananaStickers)]
      exact sum_map_div_mul _ _ _ _ (ne_of_gt hb) rfl
    have hpp : (songs.map fun x => (probEntry songs x).pointsProbability).sum = 1 / 2 := by
      have hfun : (fun x : WheelSong ℚ => (probEntry songs x).pointsProbability) =
          fun x => resolvePoints x.points / totalPointsOf songs * (1 / 2) := by
        funext x
        simp only [probEntry, hb, if_true]
        ring
      rw [hfun]
      exact sum_map_div_mul _ _ _ _ (ne_of_gt htpos) rfl
    rw [hbp, hpp]
    norm_num
  · have hbp : (songs.map fun x => (probEntry songs x).bananaProbability).sum = 0 := by
      have hfun : (fun x : WheelSong ℚ => (probEntry songs x).bananaProbability) =
          fun _ => 0 := by
        funext x
        simp [probEntry, hb]
      rw [hfun]
      simp
    have hpp : (songs.map fun x => (probEntry songs x).pointsProbability).sum = 1 := by
      have hfun : (fun x : WheelSong ℚ => (probEntry songs x).pointsProbability) =
          fun x => resolvePoints x.points / totalPointsOf songs * 1 := by
        funext x
        simp [probEntry, hb]
      rw [hfun]
      exact sum_map_div_mul _ _ _ _ (ne_of_gt htpos) rfl
    rw [hbp, hpp]
    norm_num

/-- C5 witness: the sum-to-one theorem at a concrete two-song list. -/
theorem C5_witness :
    ([(⟨1, "t1", "a1", 10, 1⟩ : WheelSong ℚ), ⟨2, "t2", "a2", 30, 0⟩] ≠ [] ∧
      (∀ s ∈ [(⟨1, "t1", "a1", 10, 1⟩ : WheelSong ℚ), ⟨2, "t2", "a2", 30, 0⟩],
        0 ≤ s.points ∧ 0 ≤ s.bananaStickers)) ∧
    ((calculateProbabilities
        [(⟨1, "t1", "a1", 10, 1⟩ : WheelSong ℚ), ⟨2, "t2", "a2", 30, 0⟩]).map
      fun p => p.2.totalProbability).sum = 1 :=
  ⟨⟨by simp, by norm_num⟩,
    C5_probabilities_sum_to_one _ (by simp) (by norm_num) (by simp)⟩

/-- C4 counterexample: a song with `points = -5` keeps weight `-5` (JS `-5 || 1`
is `-5`), so alongside a 10-point song its `totalProbability` is `-1`, not the
`1 / 11` (nor any weight-1 value) the claim predicts for a non-positive weight
resolved to 1. -/
theorem C4_counterexample :
    (jsMapGet (calculateProbabilities
        [(⟨1, "s1", "a1", -5, 0⟩ : WheelSong ℚ), ⟨2, "s2", "a2", 10, 0⟩]) 1).map
      (fun e => e.totalProbability) = some (-1) ∧
    ((-1 : ℚ) ≠ 1 / 11) := by
  constructor
  · have hget := calculateProbabilities_get
      [(⟨1, "s1", "a1", -5, 0⟩ : WheelSong ℚ), ⟨2, "s2", "a2", 10, 0⟩]
      (by simp) ⟨1, "s1", "a1", -5, 0⟩ (by simp)
    rw [show ((⟨1, "s1", "a1", -5, 0⟩ : WheelSong ℚ)).id = 1 from rfl] at hget
    rw [hget]
    norm_num [probEntry, totalBananasOf, bananaSongsOf, totalPointsOf, resolvePoints]
  · norm_num

/-- C4 amended: the general-pool weight used by `calculateProbabilities`,
`selectWinner` and `buildWheelLayout` equals `1` exactly when `points = 0`
(or is absent), and equals `points` for every other value - including negative
values, which pass through unchanged. -/
theorem C4_amended_weight_resolution :
    (∀ (songs : List (WheelSong ℚ)) (s : WheelSong ℚ),
      (songs.map fun x => x.id).Nodup → s ∈ songs →
      ∃ e, jsMapGet (calculateProbabilities songs) s.id = some e ∧
        e.pointsProbability =
          if 0 < totalBananasOf songs then
            1 / 2 * ((if s.points = 0 then 1 else s.points) / totalPointsOf songs)
          else (if s.points = 0 then 1 else s.points) / totalPointsOf songs) ∧
    (∀ (songs : List (WheelSong ℚ)) (r1 r2 : ℚ), songs ≠ [] →
      ¬ (0 < totalBananasOf songs ∧ r1 < 1 / 2) →
      selectWinner songs r1 r2 =
        (weightedRandomSelect songs
          (fun s => if s.points = 0 then 1 else s.points) r2).map
          fun w => ⟨w, false⟩) ∧
    (∀ (songs : List (WheelSong ℚ)) (seed : Option ℤ) (L : WheelLayout ℚ),
      buildWheelLayout songs seed = Except.ok L →
      ∀ g ∈ L.segments, g.isBananaSection = false →
        g.angle = (if g.song.points = 0 then 1 else g.song.points) / L.totalPoints *
          (if L.hasBananaSection = true then 180 else 360)) := by
  refine ⟨fun songs s hnodup hs => ?_, fun songs r1 r2 hne hcond => ?_,
    fun songs seed L hok g hg hgb => ?_⟩
  · exact ⟨probEntry songs s, calculateProbabilities_get songs hnodup s hs, rfl⟩
  · rw [selectWinner_ne_nil songs hne r1 r2, if_neg hcond]
    rfl
  · by_cases hne : songs = []
    · rw [hne] at hok
      have hL : (⟨[], false, 0, 0⟩ : WheelLayout ℚ) = L := Except.ok.inj hok
      rw [← hL] at hg
      simp at hg
    · obtain ⟨sb, sa, start2, _, _, hflag, htb, htp, hsegs⟩ :=
        buildWheelLayout_ok_struct songs hne hok
      rw [hsegs] at hg
      rcases List.mem_append.mp hg with hgB | hgP
      · by_cases hb : 0 < totalBananasOf songs
        · rw [if_pos hb] at hgB
          rw [(poolSegments_mem _ _ _ _ _ sb _ g hgB).1] at hgb
          cases hgb
        · rw [if_neg hb] at hgB
          simp at hgB
      · have hangle := (poolSegments_mem _ _ _ _ _ sa _ g hgP).2.1
        rw [hangle, htp, hflag]
        by_cases hb : 0 < totalBananasOf songs <;>
          simp [hb, resolvePoints]

/-- C4 amended witness: the first conjunct applied at a concrete song with
negative points, whose resolved weight is the points value itself. -/
theorem C4_amended_witness :
    ∃ e, jsMapGet (calculateProbabilities
        [(⟨1, "s1", "a1", -5, 0⟩ : WheelSong ℚ), ⟨2, "s2", "a2", 10, 0⟩])
      ((⟨1, "s1", "a1", -5, 0⟩ : WheelSong ℚ)).id = some e ∧
      e.pointsProbability =
        if 0 < totalBananasOf
            [(⟨1, "s1", "a1", -5, 0⟩ : WheelSong ℚ), ⟨2, "s2", "a2", 10, 0⟩] then
          1 / 2 * ((if ((⟨1, "s1", "a1", -5, 0⟩ : WheelSong ℚ)).points = 0 then 1
            else ((⟨1, "s1", "a1", -5, 0⟩ : WheelSong ℚ)).points) /
            totalPointsOf
              [(⟨1, "s1", "a1", -5, 0⟩ : WheelSong ℚ), ⟨2, "s2", "a2", 10, 0⟩])
        else (if ((⟨1, "s1", "a1", -5, 0⟩ : WheelSong ℚ)).points = 0 then 1
            else ((⟨1, "s1", "a1", -5, 0⟩ : WheelSong ℚ)).points) /
          totalPointsOf
            [(⟨1, "s1", "a1", -5, 0⟩ : WheelSong ℚ), ⟨2, "s2", "a2", 10, 0⟩] :=
  C4_amended_weight_resolution.1
    [(⟨1, "s1", "a1", -5, 0⟩ : WheelSong ℚ), ⟨2, "s2", "a2", 10, 0⟩]
    ⟨1, "s1", "a1", -5, 0⟩ (by simp) (by simp)

end ProbabilityLemmas

section MeasureLemmas

open MeasureTheory

/-- The uniform probability measure on `[0,1)`, modelling one `Math.random()`
draw. -/
noncomputable def unitIntervalMeasure : Measure ℝ :=
  volume.restrict (Set.Ico 0 1)

/-- The product of two independent uniform draws on `[0,1)`, modelling the pair
`(randomValue, randomValueWithinSection)` of `selectWinner`. -/
noncomputable def unitSquareMeasure : Measure (ℝ × ℝ) :=
  unitIntervalMeasure.prod unitIntervalMeasure

/-- The event that `selectWinner` returns the song with id `i`. -/
def winEvent (songs : List (WheelSong ℝ)) (i : ℤ) : Set (ℝ × ℝ) :=
  {p : ℝ × ℝ | (selectWinner songs p.1 p.2).map (fun r => r.winner.id) = some i}

theorem cumWeight_nonneg {T : Type} (w : T → K) (l : List T)
    (hw : ∀ x ∈ l, 0 ≤ w x) (n : ℕ) : 0 ≤ cumWeight w l n := by
  apply List.sum_nonneg
  intro x hx
  obtain ⟨y, hy, rfl⟩ := List.mem_map.mp hx
  exact hw y (List.mem_of_mem_take hy)

theorem cumWeight_le_sum {T : Type} (w : T → K) (l : List T)
    (hw : ∀ x ∈ l, 0 ≤ w x) (n : ℕ) : cumWeight w l n ≤ (l.map w).sum := by
  rcases le_or_lt n l.length with h | h
  · rw [← cumWeight_length]
    exact cumWeight_mono w l hw h
  · unfold cumWeight
    rw [List.take_of_length_le (le_of_lt h)]

theorem bananaSongsOf_nodup_ids (songs : List (WheelSong K))
    (h : (songs.map fun x => x.id).Nodup) :
    ((bananaSongsOf songs).map fun x => x.id).Nodup :=
  List.Nodup.sublist ((songs.filter_sublist).map fun x => x.id) h

theorem selectWinner_winner_mem {songs : List (WheelSong K)} {r1 r2 : K}
    {res : SelectResult K} (h : selectWinner songs r1 r2 = some res) :
    res.winner ∈ songs := by
  have hne : songs ≠ [] := by
    intro hemp
    rw [hemp] at h
    simp [selectWinner] at h
  rw [selectWinner_ne_nil songs hne r1 r2] at h
  by_cases hcond : 0 < totalBananasOf songs ∧ r1 < 1 / 2
  · rw [if_pos hcond] at h
    obtain ⟨w, hw, hres⟩ := Option.map_eq_some'.mp h
    rw [← hres]
    exact (mem_bananaSongsOf.mp (weightedRandomSelect_mem hw)).1
  · rw [if_neg hcond] at h
    obtain ⟨w, hw, hres⟩ := Option.map_eq_some'.mp h
    rw [← hres]
    exact weightedRandomSelect_mem hw

theorem weightedRandomSelect_map_eq_iff {T : Type} (l : List T) (w : T → K)
    (f : T → ℤ) (hw : ∀ x ∈ l, 0 ≤ w x) (hnd : (l.map f).Nodup)
    (htot : 0 < (l.map w).sum) (k : ℕ) (hk : k < l.length) (u : K) (hu1 : u < 1) :
    ((weightedRandomSelect l w u).map f = some (f (l.get ⟨k, hk⟩)) ↔
      (u * (l.map w).sum ≤ cumWeight w l (k + 1) ∧
        (k = 0 ∨ cumWeight w l k < u * (l.map w).sum))) := by
  have hne : l ≠ [] := by
    intro h
    rw [h] at hk
    simp at hk
  obtain ⟨k0, hk0, hsel, hb, hl⟩ := weightedRandomSelect_first_hit l w u hne htot hu1
  have hndl : l.Nodup := hnd.of_map
  simp only [hsel]
  simp only [Option.map_some', Option.some.injEq]
  constructor
  · intro heq
    have hgeq : l.get ⟨k0, hk0⟩ = l.get ⟨k, hk⟩ :=
      List.inj_on_of_nodup_map hnd (l.get_mem k0 hk0) (l.get_mem k hk) heq
    have hkk : k0 = k := by
      have hfin := hndl.get_inj_iff.mp hgeq
      simpa using hfin
    subst hkk
    refine ⟨hb, ?_⟩
    rcases Nat.eq_zero_or_pos k0 with rfl | hkpos
    · exact Or.inl rfl
    · refine Or.inr ?_
      have hprev := hl (k0 - 1) (by omega)
      rw [Nat.sub_add_cancel hkpos] at hprev
      exact not_le.mp hprev
  · rintro ⟨hb2, hor⟩
    suffices hkk : k0 = k by subst hkk; rfl
    by_contra hne2
    rcases Nat.lt_or_ge k0 k with hlt | hge
    · rcases hor with rfl | hcum
      · omega
      · have hmono := cumWeight_mono w l hw (show k0 + 1 ≤ k by omega)
        linarith
    · exact hl k (by omega) hb2

theorem unitIntervalMeasure_Iic {b : ℝ} (h0 : 0 ≤ b) (h1 : b ≤ 1) :
    unitIntervalMeasure (Set.Iic b) = ENNReal.ofReal b := by
  rw [unitIntervalMeasure, Measure.restrict_apply measurableSet_Iic]
  apply le_antisymm
  · have hsub : Set.Iic b ∩ Set.Ico 0 1 ⊆ Set.Icc 0 b := by
      intro x hx
      exact ⟨hx.2.1, hx.1⟩
    calc volume (Set.Iic b ∩ Set.Ico 0 1) ≤ volume (Set.Icc 0 b) := measure_mono hsub
      _ = ENNReal.ofReal b := by rw [Real.volume_Icc, sub_zero]
  · have hsub : Set.Ico 0 b ⊆ Set.Iic b ∩ Set.Ico 0 1 := by
      intro x hx
      exact ⟨le_of_lt hx.2, hx.1, lt_of_lt_of_le hx.2 h1⟩
    calc ENNReal.ofReal b = volume (Set.Ico 0 b) := by rw [Real.volume_Ico, sub_zero]
      _ ≤ volume (Set.Iic b ∩ Set.Ico 0 1) := measure_mono hsub

theorem unitIntervalMeasure_Ioc {a b : ℝ} (h0 : 0 ≤ a) (hab : a ≤ b) (h1 : b ≤ 1) :
    unitIntervalMeasure (Set.Ioc a b) = ENNReal.ofReal (b - a) := by
  rw [unitIntervalMeasure, Measure.restrict_apply measurableSet_Ioc]
  apply le_antisymm
  · have hsub : Set.Ioc a b ∩ Set.Ico 0 1 ⊆ Set.Ioc a b := Set.inter_subset_left
    calc volume (Set.Ioc a b ∩ Set.Ico 0 1) ≤ volume (Set.Ioc a b) := measure_mono hsub
      _ = ENNReal.ofReal (b - a) := Real.volume_Ioc
  · have hsub : Set.Ioo a b ⊆ Set.Ioc a b ∩ Set.Ico 0 1 := by
      intro x hx
      exact ⟨⟨hx.1, le_of_lt hx.2⟩, le_trans h0 (le_of_lt hx.1), lt_of_lt_of_le hx.2 h1⟩
    calc ENNReal.ofReal (b - a) = volume (Set.Ioo a b) := Real.volume_Ioo.symm
      _ ≤ volume (Set.Ioc a b ∩ Set.Ico 0 1) := measure_mono hsub

theorem unitIntervalMeasure_Ico {a b : ℝ} (h0 : 0 ≤ a) (h1 : b ≤ 1) :
    unitIntervalMeasure (Set.Ico a b) = ENNReal.ofReal (b - a) := by
  have hsub : Set.Ico a b ⊆ Set.Ico 0 1 := by
    intro x hx
    exact ⟨le_trans h0 hx.1, lt_of_lt_of_le hx.2 h1⟩
  rw [unitIntervalMeasure, Measure.restrict_apply measurableSet_Ico,
    Set.inter_eq_left.mpr hsub, Real.volume_Ico]

theorem unitIntervalMeasure_univ : unitIntervalMeasure Set.univ = 1 := by
  rw [unitIntervalMeasure, Measure.restrict_apply MeasurableSet.univ, Set.univ_inter,
    Real.volume_Ico]
  norm_num

theorem unitIntervalMeasure_compl_Ico : unitIntervalMeasure (Set.Ico (0:ℝ) 1)ᶜ = 0 := by
  rw [unitIntervalMeasure, Measure.restrict_apply measurableSet_Ico.compl,
    Set.compl_inter_self]
  exact measure_empty

instance : MeasureTheory.SFinite unitIntervalMeasure := by
  unfold unitIntervalMeasure
  infer_instance

theorem unitSquareMeasure_ae_box :
    ∀ᵐ p ∂unitSquareMeasure, p ∈ (Set.Ico (0:ℝ) 1) ×ˢ (Set.Ico (0:ℝ) 1) := by
  rw [ae_iff]
  have hsub : {p : ℝ × ℝ | ¬ p ∈ (Set.Ico (0:ℝ) 1) ×ˢ (Set.Ico (0:ℝ) 1)} ⊆
      ((Set.Ico (0:ℝ) 1)ᶜ ×ˢ Set.univ) ∪ (Set.univ ×ˢ (Set.Ico (0:ℝ) 1)ᶜ) := by
    intro p hp
    by_cases h1 : p.1 ∈ Set.Ico (0:ℝ) 1
    · exact Or.inr ⟨trivial, fun h2 => hp ⟨h1, h2⟩⟩
    · exact Or.inl ⟨h1, trivial⟩
  apply measure_mono_null hsub
  apply measure_union_null
  · rw [unitSquareMeasure, Measure.prod_prod, unitIntervalMeasure_compl_Ico, zero_mul]
  · rw [unitSquareMeasure, Measure.prod_prod, unitIntervalMeasure_compl_Ico, mul_zero]

theorem pool_event_measure {l : List (WheelSong ℝ)} {w : WheelSong ℝ → ℝ}
    (hw : ∀ x ∈ l, 0 ≤ w x) (hnd : (l.map fun x => x.id).Nodup)
    (htot : 0 < (l.map w).sum) {k : ℕ} (hk : k < l.length) :
    ∃ S : Set ℝ, MeasurableSet S ∧
      (∀ u : ℝ, 0 ≤ u → u < 1 →
        (((weightedRandomSelect l w u).map fun x => x.id) =
          some ((l.get ⟨k, hk⟩).id) ↔ u ∈ S)) ∧
      unitIntervalMeasure S = ENNReal.ofReal (w (l.get ⟨k, hk⟩) / (l.map w).sum) := by
  have hcum0 : ∀ n, 0 ≤ cumWeight w l n := cumWeight_nonneg w l hw
  have hcumle : ∀ n, cumWeight w l n ≤ (l.map w).sum := cumWeight_le_sum w l hw
  by_cases hk0 : k = 0
  · subst hk0
    refine ⟨Set.Iic (cumWeight w l 1 / (l.map w).sum), measurableSet_Iic, ?_, ?_⟩
    · intro u hu0 hu1
      rw [weightedRandomSelect_map_eq_iff l w (fun x => x.id) hw hnd htot 0 hk u hu1]
      constructor
      · rintro ⟨h1, _⟩
        exact Set.mem_Iic.mpr ((le_div_iff htot).mpr h1)
      · intro hu
        exact ⟨(le_div_iff htot).mp hu, Or.inl rfl⟩
    · rw [unitIntervalMeasure_Iic (div_nonneg (hcum0 1) (le_of_lt htot))
        ((div_le_one htot).mpr (hcumle 1))]
      congr 1
      rw [cumWeight_succ w l 0 hk, cumWeight_zero, zero_add]
  · refine ⟨Set.Ioc (cumWeight w l k / (l.map w).sum)
      (cumWeight w l (k + 1) / (l.map w).sum), measurableSet_Ioc, ?_, ?_⟩
    · intro u hu0 hu1
      rw [weightedRandomSelect_map_eq_iff l w (fun x => x.id) hw hnd htot k hk u hu1]
      constructor
      · rintro ⟨h1, h2⟩
        rcases h2 with h2 | h2
        · exact absurd h2 hk0
        · exact ⟨(div_lt_iff htot).mpr h2, (le_div_iff htot).mpr h1⟩
      · rintro ⟨h1, h2⟩
        exact ⟨(le_div_iff htot).mp h2, Or.inr ((div_lt_iff htot).mp h1)⟩
    · rw [unitIntervalMeasure_Ioc (div_nonneg (hcum0 k) (le_of_lt htot))
        ((div_le_div_right htot).mpr (cumWeight_le_succ w l hw k))
        ((div_le_one htot).mpr (hcumle (k + 1)))]
      rw [div_sub_div_same]
      congr 1
      rw [cumWeight_succ w l k hk]
      ring

theorem unitSquare_union_measure (S1 S2 : Set ℝ) (h1 : MeasurableSet S2)
    (m1 m2 : ENNReal) (hm1 : unitIntervalMeasure S1 = m1)
    (hm2 : unitIntervalMeasure S2 = m2) :
    unitSquareMeasure ((Set.Ico (0:ℝ) (1/2) ×ˢ S1) ∪ (Set.Ico (1/2:ℝ) 1 ×ˢ S2)) =
      ENNReal.ofReal (1/2) * m1 + ENNReal.ofReal (1/2) * m2 := by
  have hdisj : Disjoint (Set.Ico (0:ℝ) (1/2) ×ˢ S1) (Set.Ico (1/2:ℝ) 1 ×ˢ S2) := by
    rw [Set.disjoint_left]
    rintro ⟨x, y⟩ hxy hxy2
    exact absurd hxy2.1.1 (not_le.mpr hxy.1.2)
  rw [measure_union hdisj (measurableSet_Ico.prod h1), unitSquareMeasure,
    Measure.prod_prod, Measure.prod_prod, hm1, hm2,
    unitIntervalMeasure_Ico (le_refl 0) (by norm_num),
    unitIntervalMeasure_Ico (by norm_num) (le_refl 1)]
  norm_num

/-- C1: measuring `(randomValue, randomValueWithinSection)` as independent
uniform draws on `[0,1) × [0,1)`, the probability that `selectWinner` returns a
given song equals the `totalProbability` that `calculateProbabilities` assigns
to that song's id; and every returned winner carries an id present in the input
list. -/
theorem C1_selection_probability (songs : List (WheelSong ℝ))
    (hw : ∀ s ∈ songs, 0 ≤ s.points ∧ 0 ≤ s.bananaStickers)
    (hnodup : (songs.map fun x => x.id).Nodup)
    (s : WheelSong ℝ) (hs : s ∈ songs) :
    (∃ e, jsMapGet (calculateProbabilities songs) s.id = some e ∧
      unitSquareMeasure (winEvent songs s.id) = ENNReal.ofReal e.totalProbability) ∧
    (∀ (r1 r2 : ℝ) (res : SelectResult ℝ), selectWinner songs r1 r2 = some res →
      res.winner.id ∈ songs.map fun x => x.id) := by
  refine ⟨?_, fun r1 r2 res hres =>
    List.mem_map_of_mem _ (selectWinner_winner_mem hres)⟩
  refine ⟨probEntry songs s, calculateProbabilities_get songs hnodup s hs, ?_⟩
  have hne : songs ≠ [] := by
    intro h
    rw [h] at hs
    simp at hs
  have htp : 0 < totalPointsOf songs :=
    totalPointsOf_pos songs hne fun x hx => (hw x hx).1
  have hwp : ∀ x ∈ songs, 0 ≤ resolvePoints x.points :=
    fun x hx => le_of_lt (resolvePoints_pos (hw x hx).1)
  obtain ⟨k, hks⟩ := List.mem_iff_get.mp hs
  obtain ⟨SP, hSPm, hSPiff, hSPval⟩ :=
    @pool_event_measure songs (fun x => resolvePoints x.points) hwp hnodup htp k.1 k.2
  rw [show songs.get ⟨k.1, k.2⟩ = s from hks] at hSPiff hSPval
  have hwpnn : 0 ≤ resolvePoints s.points / totalPointsOf songs :=
    div_nonneg (le_of_lt (resolvePoints_pos (hw s hs).1)) (le_of_lt htp)
  by_cases hb : 0 < totalBananasOf songs
  · by_cases hst : 0 < s.bananaStickers
    · -- banana song in a wheel with a banana section
      have hmemB : s ∈ bananaSongsOf songs := mem_bananaSongsOf.mpr ⟨hs, hst⟩
      have hwb : ∀ x ∈ bananaSongsOf songs, 0 ≤ x.bananaStickers :=
        fun x hx => le_of_lt (mem_bananaSongsOf.mp hx).2
      obtain ⟨kb, hkbs⟩ := List.mem_iff_get.mp hmemB
      obtain ⟨SB, hSBm, hSBiff, hSBval⟩ :=
        @pool_event_measure (bananaSongsOf songs) (fun x => x.bananaStickers) hwb
          (bananaSongsOf_nodup_ids songs hnodup) hb kb.1 kb.2
      rw [show (bananaSongsOf songs).get ⟨kb.1, kb.2⟩ = s from hkbs] at hSBiff hSBval
      have hae : winEvent songs s.id =ᵐ[unitSquareMeasure]
          (((Set.Ico (0:ℝ) (1/2) ×ˢ SB) ∪ (Set.Ico (1/2:ℝ) 1 ×ˢ SP) : Set (ℝ × ℝ))) := by
        rw [Filter.eventuallyEq_set]
        filter_upwards [unitSquareMeasure_ae_box] with p hp
        obtain ⟨hp1, hp2⟩ := hp
        simp only [winEvent, Set.mem_setOf_eq, Set.mem_union, Set.mem_prod]
        rw [selectWinner_ne_nil songs hne p.1 p.2]
        by_cases hr1 : p.1 < 1 / 2
        · rw [if_pos ⟨hb, hr1⟩, Option.map_map]
          rw [show ((fun r : SelectResult ℝ => r.winner.id) ∘
              fun w : WheelSong ℝ => (⟨w, true⟩ : SelectResult ℝ)) =
              fun x : WheelSong ℝ => x.id from rfl]
          rw [hSBiff p.2 hp2.1 hp2.2]
          constructor
          · intro h2
            exact Or.inl ⟨⟨hp1.1, hr1⟩, h2⟩
          · rintro (⟨_, h2⟩ | ⟨hx, _⟩)
            · exact h2
            · exact absurd hx.1 (not_le.mpr hr1)
        · rw [if_neg fun hc => hr1 hc.2, Option.map_map]
          rw [show ((fun r : SelectResult ℝ => r.winner.id) ∘
              fun w : WheelSong ℝ => (⟨w, false⟩ : SelectResult ℝ)) =
              fun x : WheelSong ℝ => x.id from rfl]
          rw [hSPiff p.2 hp2.1 hp2.2]
          constructor
          · intro h2
            exact Or.inr ⟨⟨not_lt.mp hr1, hp1.2⟩, h2⟩
          · rintro (⟨hx, _⟩ | ⟨_, h2⟩)
            · exact absurd hx.2 (not_lt.mpr (not_lt.mp hr1))
            · exact h2
      rw [measure_congr hae,
        unitSquare_union_measure SB SP hSPm _ _ hSBval hSPval]
      have hbnn : 0 ≤ s.bananaStickers / totalBananasOf songs :=
        div_nonneg (le_of_lt hst) (le_of_lt hb)
      rw [← ENNReal.ofReal_mul (by norm_num), ← ENNReal.ofReal_mul (by norm_num),
        ← ENNReal.ofReal_add (by positivity) (by positivity)]
      congr 1
      simp only [probEntry, if_pos (And.intro hb hst), if_pos hb]
      rfl
    · -- non-banana song in a wheel with a banana section
      have hae : winEvent songs s.id =ᵐ[unitSquareMeasure]
          (((Set.Ico (0:ℝ) (1/2) ×ˢ (∅ : Set ℝ)) ∪ (Set.Ico (1/2:ℝ) 1 ×ˢ SP) : Set (ℝ × ℝ))) := by
        rw [Filter.eventuallyEq_set]
        filter_upwards [unitSquareMeasure_ae_box] with p hp
        obtain ⟨hp1, hp2⟩ := hp
        simp only [winEvent, Set.mem_setOf_eq, Set.mem_union, Set.mem_prod]
        rw [selectWinner_ne_nil songs hne p.1 p.2]
        by_cases hr1 : p.1 < 1 / 2
        · rw [if_pos ⟨hb, hr1⟩, Option.map_map]
          rw [show ((fun r : SelectResult ℝ => r.winner.id) ∘
              fun w : WheelSong ℝ => (⟨w, true⟩ : SelectResult ℝ)) =
              fun x : WheelSong ℝ => x.id from rfl]
          constructor
          · intro h2
            obtain ⟨x, hx, hxid⟩ := Option.map_eq_some'.mp h2
            have hxmem : x ∈ bananaSongsOf songs := weightedRandomSelect_mem hx
            have hxs : x = s := List.inj_on_of_nodup_map hnodup
              (mem_bananaSongsOf.mp hxmem).1 hs hxid
            rw [hxs] at hxmem
            exact absurd (mem_bananaSongsOf.mp hxmem).2 hst
          · rintro (⟨_, h2⟩ | ⟨hx, _⟩)
            · exact absurd h2 (Set.not_mem_empty p.2)
            · exact absurd hx.1 (not_le.mpr hr1)
        · rw [if_neg fun hc => hr1 hc.2, Option.map_map]
          rw [show ((fun r : SelectResult ℝ => r.winner.id) ∘
              fun w : WheelSong ℝ => (⟨w, false⟩ : SelectResult ℝ)) =
              fun x : WheelSong ℝ => x.id from rfl]
          rw [hSPiff p.2 hp2.1 hp2.2]
          constructor
          · intro h2
            exact Or.inr ⟨⟨not_lt.mp hr1, hp1.2⟩, h2⟩
          · rintro (⟨hx, _⟩ | ⟨_, h2⟩)
            · exact absurd hx.2 (not_lt.mpr (not_lt.mp hr1))
            · exact h2
      rw [measure_congr hae,
        unitSquare_union_measure ∅ SP hSPm _ _ measure_empty hSPval]
      rw [mul_zero, zero_add, ← ENNReal.ofReal_mul (by norm_num)]
      congr 1
      have hcond : ¬ (0 < totalBananasOf songs ∧ 0 < s.bananaStickers) :=
        fun hc => hst hc.2
      simp only [probEntry, if_neg hcond, if_pos hb, zero_add]
      rfl
  · -- no banana section at all
    have hae : winEvent songs s.id =ᵐ[unitSquareMeasure]
        (((Set.univ : Set ℝ) ×ˢ SP : Set (ℝ × ℝ))) := by
      rw [Filter.eventuallyEq_set]
      filter_upwards [unitSquareMeasure_ae_box] with p hp
      obtain ⟨hp1, hp2⟩ := hp
      simp only [winEvent, Set.mem_setOf_eq, Set.mem_prod, Set.mem_univ, true_and]
      rw [selectWinner_ne_nil songs hne p.1 p.2]
      rw [if_neg fun hc => hb hc.1, Option.map_map]
      rw [show ((fun r : SelectResult ℝ => r.winner.id) ∘
          fun w : WheelSong ℝ => (⟨w, false⟩ : SelectResult ℝ)) =
          fun x : WheelSong ℝ => x.id from rfl]
      rw [hSPiff p.2 hp2.1 hp2.2]
    rw [measure_congr hae, unitSquareMeasure, Measure.prod_prod,
      unitIntervalMeasure_univ, one_mul, hSPval]
    congr 1
    have hcond : ¬ (0 < totalBananasOf songs ∧ 0 < s.bananaStickers) :=
      fun hc => hb hc.1
    simp only [probEntry, if_neg hcond, if_neg hb, zero_add]
    rfl

/-- C1 witness: the probability theorem applied to a concrete one-song list over
the reals. -/
theorem C1_witness :
    ((∀ x ∈ [(⟨1, "t1", "a1", 2, 0⟩ : WheelSong ℝ)], 0 ≤ x.points ∧ 0 ≤ x.bananaStickers) ∧
      (([(⟨1, "t1", "a1", 2, 0⟩ : WheelSong ℝ)]).map fun x => x.id).Nodup) ∧
    (∃ e, jsMapGet (calculateProbabilities [(⟨1, "t1", "a1", 2, 0⟩ : WheelSong ℝ)])
        ((⟨1, "t1", "a1", 2, 0⟩ : WheelSong ℝ)).id = some e ∧
      unitSquareMeasure (winEvent [(⟨1, "t1", "a1", 2, 0⟩ : WheelSong ℝ)]
        ((⟨1, "t1", "a1", 2, 0⟩ : WheelSong ℝ)).id) = ENNReal.ofReal e.totalProbability) :=
  ⟨⟨by norm_num, by simp⟩,
    (C1_selection_probability [(⟨1, "t1", "a1", 2, 0⟩ : WheelSong ℝ)] (by norm_num)
      (by simp) ⟨1, "t1", "a1", 2, 0⟩ (by simp)).1⟩

end MeasureLemmas

end Wheel
